import Mathlib

/-!
Verification of the D'Hondt seat-allocation core of the `challenge-grupo-msa`
repository (`backend/app/services/dhondt_service.py`, method
`DhondtService._calculate_dhondt`, together with the `total_seats` validation
performed by `CalculateAggregateRequest` in `backend/app/models/schemas.py`).

The Python code is embedded shallowly:
* the working dicts `{'name': …, 'votes': …, 'seats': …}` become the
  structure `ListResult` (named after the schema class of the repo);
* input pairs `{'name': …, 'votes': …}` become `Candidate`;
* Python `float` arithmetic (quotients, threshold) is modelled by exact
  rationals `ℚ`, matching the spec's "exact rational/real division";
* `raise ValueError` becomes `Except.error`;
* the `for`-loops become structural recursions that follow the source
  statement by statement.
-/

/-- Input record: one entry of the `lists` argument of `_calculate_dhondt`
(`{'name': …, 'votes': …}`). Votes are integers; negativity is checked by
the function itself. -/
structure Candidate where
  name : String
  votes : Int
deriving Repr, DecidableEq

/-- Working/output record of `_calculate_dhondt`
(`{'name': …, 'votes': …, 'seats': …}`). -/
structure ListResult where
  name : String
  votes : Int
  seats : Nat
deriving Repr, DecidableEq

/-- `result['votes'] / (result['seats'] + 1)` — the D'Hondt quotient, with
Python float division modelled as exact division in `ℚ`. -/
def quotient (r : ListResult) : ℚ := (r.votes : ℚ) / ((r.seats : ℚ) + 1)

/-- The `for i, result in enumerate(eligible_results)` loop of the source:
running maximum quotient `maxq` (initially `-1`) and the list `cands` of
indices currently achieving it. -/
def scanGo : List ListResult → Nat → ℚ → List Nat → ℚ × List Nat
  | [], _, maxq, cands => (maxq, cands)
  | r :: rest, i, maxq, cands =>
    if maxq < quotient r then scanGo rest (i + 1) (quotient r) [i]
    else if quotient r = maxq then scanGo rest (i + 1) maxq (cands ++ [i])
    else scanGo rest (i + 1) maxq cands

/-- `max_quotient = -1; candidates = []` followed by the scan loop. -/
def scanQuotients (es : List ListResult) : ℚ × List Nat := scanGo es 0 (-1) []

/-- `eligible_results[idx]['votes']` (indices produced by the scan are always
in range, so the default value is never used). -/
def votesAt (es : List ListResult) (i : Nat) : Int :=
  (es.getD i { name := "", votes := 0, seats := 0 }).votes

/-- The tie-breaker loop: `max_votes = -1; winner_index = candidates[0];
for idx in candidates: if votes > max_votes: update`. -/
def tieGo (es : List ListResult) : List Nat → Int → Nat → Nat
  | [], _, w => w
  | c :: cs, maxv, w =>
    if maxv < votesAt es c then tieGo es cs (votesAt es c) c
    else tieGo es cs maxv w

/-- Winner index among tied candidates (higher votes wins, first index on
equal votes), as computed by the source's tie-breaker block. -/
def tieBreak (es : List ListResult) (cands : List Nat) : Nat :=
  tieGo es cands (-1) (cands.headD 0)

/-- `eligible_results[i]['seats'] += 1`. -/
def incSeatAt : List ListResult → Nat → List ListResult
  | [], _ => []
  | r :: rest, 0 => { r with seats := r.seats + 1 } :: rest
  | r :: rest, i + 1 => r :: incSeatAt rest i

/-- One iteration of `for _ in range(total_seats)`: find the maximal
quotient, collect tied indices, give one seat to the winner (`if candidates:`
keeps the list unchanged when no candidate was collected; a singleton wins
directly, otherwise the tie-breaker runs). -/
def allocateRound (es : List ListResult) : List ListResult :=
  match (scanQuotients es).2 with
  | [] => es
  | [i] => incSeatAt es i
  | cands => incSeatAt es (tieBreak es cands)

/-- `for _ in range(total_seats)` applied to the eligible list. -/
def runRounds : Nat → List ListResult → List ListResult
  | 0, es => es
  | n + 1, es => runRounds n (allocateRound es)

/-- The merge block: iterate over the original `results`; a result whose
name is among the eligible names is replaced by the first eligible entry
with that name (`next(er for er in eligible_results if …)`), otherwise it
is kept with its 0 seats. -/
def mergeResults (results elig : List ListResult) : List ListResult :=
  results.map fun r =>
    if elig.any fun er => er.name = r.name then
      (elig.find? fun er => er.name = r.name).getD r
    else r

/-- The initialization loop of `_calculate_dhondt`: reject the first
candidate with negative votes (`raise ValueError`), otherwise build the
seats-0 working records. -/
def initResults : List Candidate → Except String (List ListResult)
  | [] => .ok []
  | c :: rest =>
    if c.votes < 0 then
      .error ("Invalid votes for " ++ c.name ++ ": votes must be non-negative")
    else
      match initResults rest with
      | .error m => .error m
      | .ok rs => .ok ({ name := c.name, votes := c.votes, seats := 0 } :: rs)

/-- `DhondtService._calculate_dhondt(lists, total_seats, threshold_percent)`.
`total_seats` is an `Int` as in Python; `range(total_seats)` is empty for a
non-positive argument, hence `total_seats.toNat` rounds. -/
def calculate_dhondt (lists : List Candidate) (total_seats : Int)
    (threshold_percent : ℚ := 3) : Except String (List ListResult) :=
  match initResults lists with
  | .error m => .error m
  | .ok results =>
    let total_votes : Int := results.foldl (fun acc r => acc + r.votes) 0
    if total_votes = 0 then .ok results
    else
      let threshold_votes : ℚ := (total_votes : ℚ) * (threshold_percent / 100)
      let eligible_results := results.filter fun r => threshold_votes ≤ (r.votes : ℚ)
      if eligible_results = [] then .ok results
      else .ok (mergeResults results (runRounds total_seats.toNat eligible_results))

/-- The `total_seats` field constraint of `CalculateAggregateRequest`
(`Field(..., gt=0)` in `schemas.py`): request construction fails for a
non-positive seat count before the service method runs. -/
def mkCalculateAggregateRequest (total_seats : Int) : Except String Int :=
  if 0 < total_seats then .ok total_seats
  else .error "Input should be greater than 0"

/-- The allocator as reachable through `calculate_aggregate`: the request
model validates `total_seats`, then `_calculate_dhondt` runs on the
aggregated candidate list. -/
def allocate (lists : List Candidate) (total_seats : Int)
    (threshold_percent : ℚ := 3) : Except String (List ListResult) :=
  match mkCalculateAggregateRequest total_seats with
  | .error m => .error m
  | .ok ts => calculate_dhondt lists ts threshold_percent

/-- Total seats assigned in a result list (the measure used by the
conservation property). -/
def sumSeats (rs : List ListResult) : Nat := (rs.map (fun r => r.seats)).sum

/-- Name and votes of a working record: everything the allocation loop is
not allowed to change. -/
def nv (r : ListResult) : String × Int := (r.name, r.votes)

/-- Indexing helper used to state properties of the scan: the record at
position `i` (in-range in every use). -/
def resultAt (es : List ListResult) (i : Nat) : ListResult :=
  es.getD i { name := "", votes := 0, seats := 0 }

/-- The `results` list built by the initialization loop on a valid input. -/
def initList (lists : List Candidate) : List ListResult :=
  lists.map fun c => { name := c.name, votes := c.votes, seats := 0 }

/-- `total_votes * (threshold_percent / 100)` of the source. -/
def thresholdVotes (lists : List Candidate) (thr : ℚ) : ℚ :=
  (((lists.map (fun c => c.votes)).sum : Int) : ℚ) * (thr / 100)

/-- The `eligible_results` list computed by the threshold filter. -/
def eligOf (lists : List Candidate) (thr : ℚ) : List ListResult :=
  (initList lists).filter fun r => thresholdVotes lists thr ≤ (r.votes : ℚ)

/-- Seats at position `j` of a working list. -/
def seatsAt (es : List ListResult) (j : Nat) : Nat := (resultAt es j).seats

/-- Priority triple of the `d`-th seat of a candidate with `v` votes at
position `idx`: the D'Hondt quotient for divisor `d`, then raw votes, then
the position (used to analyse the tie-break). -/
def prio (v : Int) (idx d : Nat) : ℚ × Int × Nat := ((v : ℚ) / (d : ℚ), v, idx)

/-- Strict priority: `a` is served before `b` — higher quotient, then
higher votes, then earlier position. -/
def beats (a b : ℚ × Int × Nat) : Prop :=
  b.1 < a.1 ∨ (b.1 = a.1 ∧ (b.2.1 < a.2.1 ∨ (b.2.1 = a.2.1 ∧ a.2.2 < b.2.2)))

/-- Loop invariant of the allocation rounds: every seat already assigned
(candidate `j`, divisor `d ≤ seats j`) strictly beats every candidate's
next pending seat (divisor `seats j' + 1`). -/
def InvP (es : List ListResult) : Prop :=
  ∀ j j', j < es.length → j' < es.length → ∀ d : Nat, 1 ≤ d → d ≤ seatsAt es j →
    beats (prio (votesAt es j) j d) (prio (votesAt es j') j' (seatsAt es j' + 1))

/-- Position of (eligible) candidate `j` inside `eligible_results`: the
number of eligible candidates before it. -/
def eIdx (lists : List Candidate) (thr : ℚ) (j : Nat) : Nat :=
  ((initList lists).take j).countP (fun r => thresholdVotes lists thr ≤ (r.votes : ℚ))

/-- The input of the monotonicity property: the same candidate list with
candidate `i`'s votes raised by `d`. -/
def raiseVotes : List Candidate → Nat → Int → List Candidate
  | [], _, _ => []
  | c :: cs, 0, d => { c with votes := c.votes + d } :: cs
  | c :: cs, i + 1, d => c :: raiseVotes cs i d

/-! ### Structural lemmas about the building blocks -/

theorem incSeatAt_length (es : List ListResult) (i : Nat) :
    (incSeatAt es i).length = es.length := by
  induction es generalizing i with
  | nil => rfl
  | cons r rest ih =>
    cases i with
    | zero => rfl
    | succ n => simp [incSeatAt, ih]

theorem incSeatAt_map_nv (es : List ListResult) (i : Nat) :
    (incSeatAt es i).map nv = es.map nv := by
  induction es generalizing i with
  | nil => rfl
  | cons r rest ih =>
    cases i with
    | zero => simp [incSeatAt, nv]
    | succ n => simp [incSeatAt, ih]

theorem sumSeats_cons (r : ListResult) (rs : List ListResult) :
    sumSeats (r :: rs) = r.seats + sumSeats rs := by
  simp [sumSeats]

theorem sumSeats_incSeatAt (es : List ListResult) (i : Nat) (h : i < es.length) :
    sumSeats (incSeatAt es i) = sumSeats es + 1 := by
  induction es generalizing i with
  | nil => simp at h
  | cons r rest ih =>
    cases i with
    | zero => simp [incSeatAt, sumSeats_cons]; omega
    | succ n =>
      have hn : n < rest.length := by simpa using h
      simp [incSeatAt, sumSeats_cons, ih n hn]; omega

theorem nonneg_of_map_nv {es es' : List ListResult}
    (hmap : es'.map nv = es.map nv) (h : ∀ r ∈ es, 0 ≤ r.votes) :
    ∀ r ∈ es', 0 ≤ r.votes := by
  intro r hr
  have : nv r ∈ es.map nv := by rw [← hmap]; exact List.mem_map_of_mem nv hr
  obtain ⟨s, hs, hsr⟩ := List.mem_map.mp this
  have : s.votes = r.votes := congrArg Prod.snd hsr
  rw [← this]; exact h s hs

theorem initResults_ok (lists : List Candidate) (h : ∀ c ∈ lists, 0 ≤ c.votes) :
    initResults lists =
      Except.ok (lists.map fun c => { name := c.name, votes := c.votes, seats := 0 }) := by
  induction lists with
  | nil => rfl
  | cons c rest ih =>
    have hc : ¬ c.votes < 0 := by have := h c (by simp); omega
    have ihh := ih (fun x hx => h x (by simp [hx]))
    simp [initResults, hc, ihh]

theorem foldl_votes (rs : List ListResult) (a : Int) :
    rs.foldl (fun acc r => acc + r.votes) a = a + (rs.map (fun r => r.votes)).sum := by
  induction rs generalizing a with
  | nil => simp
  | cons r rest ih => simp [ih]; ring

/-! ### Claim theorems: concrete examples and input validation -/

/-- C2 (counterexample): the spec's Example 1 does not match the code. On
candidates `[A:100000, B:5000, C:2000]` with 5 seats and threshold 3.0,
`_calculate_dhondt` does not return `A:4, B:1, C:0`. -/
theorem dhondt_example1_spec_value_rejected :
    calculate_dhondt [⟨"A", 100000⟩, ⟨"B", 5000⟩, ⟨"C", 2000⟩] 5 3 ≠
      Except.ok [⟨"A", 100000, 4⟩, ⟨"B", 5000, 1⟩, ⟨"C", 2000, 0⟩] := by
  norm_num [calculate_dhondt, initResults, mergeResults, runRounds, allocateRound,
    scanQuotients, scanGo, tieBreak, tieGo, incSeatAt, votesAt, quotient, List.find?_cons]
  simp

/-- C2 (amended): on `[A:100000, B:5000, C:2000]` with `total_seats = 5` and
threshold 3.0, the threshold line of `_calculate_dhondt` excludes C
(2000 < 3210 = 107000 · 3/100), and the allocation gives A 5 seats, B 0
seats and C 0 seats: A's fifth quotient 100000/5 = 20000 still beats B's
5000, so A wins every round. -/
theorem dhondt_example1_actual :
    calculate_dhondt [⟨"A", 100000⟩, ⟨"B", 5000⟩, ⟨"C", 2000⟩] 5 3 =
      Except.ok [⟨"A", 100000, 5⟩, ⟨"B", 5000, 0⟩, ⟨"C", 2000, 0⟩] ∧
    ([⟨"A", 100000, 0⟩, ⟨"B", 5000, 0⟩, ⟨"C", 2000, 0⟩] : List ListResult).filter
        (fun r => ((107000 : ℚ) * (3 / 100)) ≤ (r.votes : ℚ)) =
      [⟨"A", 100000, 0⟩, ⟨"B", 5000, 0⟩] := by
  constructor
  · norm_num [calculate_dhondt, initResults, mergeResults, runRounds, allocateRound,
      scanQuotients, scanGo, tieBreak, tieGo, incSeatAt, votesAt, quotient, List.find?_cons]
    simp
  · norm_num [List.filter]

/-- C3: through the aggregate-calculation entry point, a request whose
`total_seats` is zero or negative is rejected by the `gt=0` constraint of
`CalculateAggregateRequest` before the service runs, for every candidate
list; no result is produced. -/
theorem allocate_nonpositive_seats_invalid (lists : List Candidate) (ts : Int) (thr : ℚ)
    (h : ts ≤ 0) :
    allocate lists ts thr = Except.error "Input should be greater than 0" := by
  have hlt : ¬ 0 < ts := by omega
  simp [allocate, mkCalculateAggregateRequest, hlt]

/-- Witness for C3 at `total_seats = 0`. -/
theorem allocate_nonpositive_seats_invalid_witness :
    allocate [⟨"A", 10⟩] 0 3 = Except.error "Input should be greater than 0" :=
  allocate_nonpositive_seats_invalid [⟨"A", 10⟩] 0 3 (by omega)

/-- C7: on a candidate list with non-negative votes summing to zero,
`_calculate_dhondt` returns every candidate with 0 seats, for every seat
count and every threshold — the early `total_votes == 0` return fires, so
neither the threshold filter nor the quotient loop is reached (the output
does not depend on `total_seats` or `threshold_percent`). -/
theorem dhondt_zero_votes_all_zero (lists : List Candidate) (ts : Int) (thr : ℚ)
    (hnn : ∀ c ∈ lists, 0 ≤ c.votes)
    (hz : (lists.map (fun c => c.votes)).sum = 0) :
    calculate_dhondt lists ts thr =
      Except.ok (lists.map fun c => { name := c.name, votes := c.votes, seats := 0 }) := by
  have hcomp : ((fun r : ListResult => r.votes) ∘
      fun c : Candidate => ({ name := c.name, votes := c.votes, seats := 0 } : ListResult)) =
      fun c : Candidate => c.votes := rfl
  simp [calculate_dhondt, initResults_ok lists hnn, foldl_votes, List.map_map, hcomp, hz]

/-- Witness for C7: `[A:0, B:0]`, ten seats. -/
theorem dhondt_zero_votes_all_zero_witness :
    calculate_dhondt [⟨"A", 0⟩, ⟨"B", 0⟩] 10 3 =
      Except.ok [⟨"A", 0, 0⟩, ⟨"B", 0, 0⟩] :=
  dhondt_zero_votes_all_zero [⟨"A", 0⟩, ⟨"B", 0⟩] 10 3 (by simp) (by simp)

/-! ### The scan loop: maximal quotient and the tied indices -/

theorem quotient_nonneg {r : ListResult} (h : 0 ≤ r.votes) : 0 ≤ quotient r := by
  unfold quotient
  apply div_nonneg
  · exact_mod_cast h
  · positivity

theorem scanGo_acc_ne_nil (es : List ListResult) (i : Nat) (mq : ℚ) (cs : List Nat)
    (h : cs ≠ []) : (scanGo es i mq cs).2 ≠ [] := by
  induction es generalizing i mq cs with
  | nil => simpa [scanGo] using h
  | cons r rest ih =>
    by_cases h1 : mq < quotient r
    · simpa [scanGo, h1] using ih (i + 1) (quotient r) [i] (by simp)
    · by_cases h2 : quotient r = mq
      · simpa [scanGo, h1, h2] using ih (i + 1) mq (cs ++ [i]) (by simp)
      · simpa [scanGo, h1, h2] using ih (i + 1) mq cs h

theorem scanQuotients_snd_ne_nil (es : List ListResult) (hne : es ≠ [])
    (hv : ∀ r ∈ es, 0 ≤ r.votes) : (scanQuotients es).2 ≠ [] := by
  match es, hne with
  | r :: rest, _ =>
    have hq : (-1 : ℚ) < quotient r :=
      lt_of_lt_of_le (by norm_num) (quotient_nonneg (hv r (by simp)))
    unfold scanQuotients
    rw [show scanGo (r :: rest) 0 (-1) [] = scanGo rest 1 (quotient r) [0] by
      simp [scanGo, hq]]
    exact scanGo_acc_ne_nil rest 1 (quotient r) [0] (by simp)

theorem scanGo_indices_lt (es : List ListResult) (i : Nat) (mq : ℚ) (cs : List Nat)
    (h : ∀ j ∈ cs, j < i) :
    ∀ j ∈ (scanGo es i mq cs).2, j < i + es.length := by
  induction es generalizing i mq cs with
  | nil =>
    intro j hj
    have := h j (by simpa [scanGo] using hj)
    omega
  | cons r rest ih =>
    intro j hj
    by_cases h1 : mq < quotient r
    · rw [show scanGo (r :: rest) i mq cs = scanGo rest (i + 1) (quotient r) [i] by
        simp [scanGo, h1]] at hj
      have := ih (i + 1) (quotient r) [i] (by intro x hx; simp at hx; omega) j hj
      simp only [List.length_cons]; omega
    · by_cases h2 : quotient r = mq
      · rw [show scanGo (r :: rest) i mq cs = scanGo rest (i + 1) mq (cs ++ [i]) by
          simp [scanGo, h1, h2]] at hj
        have hbound : ∀ x ∈ cs ++ [i], x < i + 1 := by
          intro x hx
          simp only [List.mem_append, List.mem_singleton] at hx
          rcases hx with hx | hx
          · exact Nat.lt_succ_of_lt (h x hx)
          · omega
        have := ih (i + 1) mq (cs ++ [i]) hbound j hj
        simp only [List.length_cons]; omega
      · rw [show scanGo (r :: rest) i mq cs = scanGo rest (i + 1) mq cs by
          simp [scanGo, h1, h2]] at hj
        have := ih (i + 1) mq cs (fun x hx => Nat.lt_succ_of_lt (h x hx)) j hj
        simp only [List.length_cons]; omega

theorem scanGo_fst_mono (es : List ListResult) (i : Nat) (mq : ℚ) (cs : List Nat) :
    mq ≤ (scanGo es i mq cs).1 := by
  induction es generalizing i mq cs with
  | nil => simp [scanGo]
  | cons r rest ih =>
    by_cases h1 : mq < quotient r
    · rw [show scanGo (r :: rest) i mq cs = scanGo rest (i + 1) (quotient r) [i] by
        simp [scanGo, h1]]
      exact le_trans (le_of_lt h1) (ih (i + 1) (quotient r) [i])
    · by_cases h2 : quotient r = mq
      · rw [show scanGo (r :: rest) i mq cs = scanGo rest (i + 1) mq (cs ++ [i]) by
          simp [scanGo, h1, h2]]
        exact ih (i + 1) mq (cs ++ [i])
      · rw [show scanGo (r :: rest) i mq cs = scanGo rest (i + 1) mq cs by
          simp [scanGo, h1, h2]]
        exact ih (i + 1) mq cs

theorem scanGo_fst_ge (es : List ListResult) (i : Nat) (mq : ℚ) (cs : List Nat) :
    ∀ k, k < es.length → quotient (resultAt es k) ≤ (scanGo es i mq cs).1 := by
  induction es generalizing i mq cs with
  | nil => intro k hk; simp at hk
  | cons r rest ih =>
    intro k hk
    have hstep : ∀ (i' : Nat) (mq' : ℚ) (cs' : List Nat),
        scanGo (r :: rest) i mq cs = scanGo rest i' mq' cs' →
        quotient r ≤ mq' →
        quotient (resultAt (r :: rest) k) ≤ (scanGo (r :: rest) i mq cs).1 := by
      intro i' mq' cs' heq hle
      rw [heq]
      cases k with
      | zero =>
        exact le_trans (by simpa [resultAt] using hle) (scanGo_fst_mono rest i' mq' cs')
      | succ k' =>
        have hk' : k' < rest.length := by simpa using hk
        simpa [resultAt] using ih i' mq' cs' k' hk'
    by_cases h1 : mq < quotient r
    · exact hstep (i + 1) (quotient r) [i] (by simp [scanGo, h1]) le_rfl
    · by_cases h2 : quotient r = mq
      · exact hstep (i + 1) mq (cs ++ [i]) (by simp [scanGo, h1, h2]) (le_of_eq h2)
      · exact hstep (i + 1) mq cs (by simp [scanGo, h1, h2]) (by push_neg at h1; exact h1)

theorem scanGo_mem_sound (es : List ListResult) (i : Nat) (mq : ℚ) (cs : List Nat) :
    ∀ j ∈ (scanGo es i mq cs).2,
      (j ∈ cs ∧ (scanGo es i mq cs).1 = mq) ∨
      ∃ k, k < es.length ∧ j = i + k ∧
        quotient (resultAt es k) = (scanGo es i mq cs).1 := by
  induction es generalizing i mq cs with
  | nil =>
    intro j hj
    exact Or.inl ⟨by simpa [scanGo] using hj, by simp [scanGo]⟩
  | cons r rest ih =>
    intro j hj
    by_cases h1 : mq < quotient r
    · have heq : scanGo (r :: rest) i mq cs = scanGo rest (i + 1) (quotient r) [i] := by
        simp [scanGo, h1]
      rw [heq] at hj ⊢
      rcases ih (i + 1) (quotient r) [i] j hj with ⟨hm, he⟩ | ⟨k, hk, hjk, hq⟩
      · refine Or.inr ⟨0, by simp, ?_, ?_⟩
        · simp at hm; omega
        · simpa [resultAt] using he.symm
      · exact Or.inr ⟨k + 1, by simpa using hk, by omega, by simpa [resultAt] using hq⟩
    · by_cases h2 : quotient r = mq
      · have heq : scanGo (r :: rest) i mq cs = scanGo rest (i + 1) mq (cs ++ [i]) := by
          simp [scanGo, h1, h2]
        rw [heq] at hj ⊢
        rcases ih (i + 1) mq (cs ++ [i]) j hj with ⟨hm, he⟩ | ⟨k, hk, hjk, hq⟩
        · simp only [List.mem_append, List.mem_singleton] at hm
          rcases hm with hm | hm
          · exact Or.inl ⟨hm, he⟩
          · refine Or.inr ⟨0, by simp, by omega, ?_⟩
            simpa [resultAt, h2] using he.symm
        · exact Or.inr ⟨k + 1, by simpa using hk, by omega, by simpa [resultAt] using hq⟩
      · have heq : scanGo (r :: rest) i mq cs = scanGo rest (i + 1) mq cs := by
          simp [scanGo, h1, h2]
        rw [heq] at hj ⊢
        rcases ih (i + 1) mq cs j hj with ⟨hm, he⟩ | ⟨k, hk, hjk, hq⟩
        · exact Or.inl ⟨hm, he⟩
        · exact Or.inr ⟨k + 1, by simpa using hk, by omega, by simpa [resultAt] using hq⟩

theorem scanGo_acc_mem (es : List ListResult) (i : Nat) (mq : ℚ) (cs : List Nat)
    (j : Nat) (hj : j ∈ cs) (hfst : (scanGo es i mq cs).1 = mq) :
    j ∈ (scanGo es i mq cs).2 := by
  induction es generalizing i mq cs with
  | nil => simpa [scanGo] using hj
  | cons r rest ih =>
    by_cases h1 : mq < quotient r
    · exfalso
      have heq : scanGo (r :: rest) i mq cs = scanGo rest (i + 1) (quotient r) [i] := by
        simp [scanGo, h1]
      rw [heq] at hfst
      have := scanGo_fst_mono rest (i + 1) (quotient r) [i]
      rw [hfst] at this
      exact absurd this (not_le.mpr h1)
    · by_cases h2 : quotient r = mq
      · have heq : scanGo (r :: rest) i mq cs = scanGo rest (i + 1) mq (cs ++ [i]) := by
          simp [scanGo, h1, h2]
        rw [heq] at hfst ⊢
        exact ih (i + 1) mq (cs ++ [i]) (by simp [hj]) hfst
      · have heq : scanGo (r :: rest) i mq cs = scanGo rest (i + 1) mq cs := by
          simp [scanGo, h1, h2]
        rw [heq] at hfst ⊢
        exact ih (i + 1) mq cs hj hfst

theorem scanGo_mem_complete (es : List ListResult) (i : Nat) (mq : ℚ) (cs : List Nat) :
    ∀ k, k < es.length → quotient (resultAt es k) = (scanGo es i mq cs).1 →
      (i + k) ∈ (scanGo es i mq cs).2 := by
  induction es generalizing i mq cs with
  | nil => intro k hk; simp at hk
  | cons r rest ih =>
    intro k hk hq
    by_cases h1 : mq < quotient r
    · have heq : scanGo (r :: rest) i mq cs = scanGo rest (i + 1) (quotient r) [i] := by
        simp [scanGo, h1]
      rw [heq] at hq ⊢
      cases k with
      | zero =>
        have : (scanGo rest (i + 1) (quotient r) [i]).1 = quotient r := by
          simpa [resultAt] using hq.symm
        simpa using scanGo_acc_mem rest (i + 1) (quotient r) [i] i (by simp) this
      | succ k' =>
        have hk' : k' < rest.length := by simpa using hk
        have := ih (i + 1) (quotient r) [i] k' hk' (by simpa [resultAt] using hq)
        have hidx : i + (k' + 1) = (i + 1) + k' := by omega
        rw [hidx]
        exact this
    · by_cases h2 : quotient r = mq
      · have heq : scanGo (r :: rest) i mq cs = scanGo rest (i + 1) mq (cs ++ [i]) := by
          simp [scanGo, h1, h2]
        rw [heq] at hq ⊢
        cases k with
        | zero =>
          have : (scanGo rest (i + 1) mq (cs ++ [i])).1 = mq := by
            have hqr : quotient r = (scanGo rest (i + 1) mq (cs ++ [i])).1 := by
              simpa [resultAt] using hq
            rw [← hqr, h2]
          simpa using scanGo_acc_mem rest (i + 1) mq (cs ++ [i]) i (by simp) this
        | succ k' =>
          have hk' : k' < rest.length := by simpa using hk
          have := ih (i + 1) mq (cs ++ [i]) k' hk' (by simpa [resultAt] using hq)
          have hidx : i + (k' + 1) = (i + 1) + k' := by omega
          rw [hidx]
          exact this
      · have heq : scanGo (r :: rest) i mq cs = scanGo rest (i + 1) mq cs := by
          simp [scanGo, h1, h2]
        rw [heq] at hq ⊢
        cases k with
        | zero =>
          exfalso
          have hmono := scanGo_fst_mono rest (i + 1) mq cs
          have hqr : quotient r = (scanGo rest (i + 1) mq cs).1 := by
            simpa [resultAt] using hq
          push_neg at h1
          have : quotient r < mq := lt_of_le_of_ne h1 h2
          rw [hqr] at this
          exact absurd hmono (not_le.mpr this)
        | succ k' =>
          have hk' : k' < rest.length := by simpa using hk
          have := ih (i + 1) mq cs k' hk' (by simpa [resultAt] using hq)
          have hidx : i + (k' + 1) = (i + 1) + k' := by omega
          rw [hidx]
          exact this

theorem scanGo_sorted (es : List ListResult) (i : Nat) (mq : ℚ) (cs : List Nat)
    (hs : cs.Pairwise (· < ·)) (hb : ∀ j ∈ cs, j < i) :
    (scanGo es i mq cs).2.Pairwise (· < ·) := by
  induction es generalizing i mq cs with
  | nil => simpa [scanGo] using hs
  | cons r rest ih =>
    by_cases h1 : mq < quotient r
    · rw [show scanGo (r :: rest) i mq cs = scanGo rest (i + 1) (quotient r) [i] by
        simp [scanGo, h1]]
      exact ih (i + 1) (quotient r) [i] (by simp) (by simp)
    · by_cases h2 : quotient r = mq
      · rw [show scanGo (r :: rest) i mq cs = scanGo rest (i + 1) mq (cs ++ [i]) by
          simp [scanGo, h1, h2]]
        refine ih (i + 1) mq (cs ++ [i]) ?_ ?_
        · exact List.pairwise_append.mpr ⟨hs, by simp, by
            intro a ha b hb'
            simp only [List.mem_singleton] at hb'
            exact hb' ▸ hb a ha⟩
        · intro x hx
          simp only [List.mem_append, List.mem_singleton] at hx
          rcases hx with hx | hx
          · exact Nat.lt_succ_of_lt (hb x hx)
          · omega
      · rw [show scanGo (r :: rest) i mq cs = scanGo rest (i + 1) mq cs by
          simp [scanGo, h1, h2]]
        exact ih (i + 1) mq cs hs (fun x hx => Nat.lt_succ_of_lt (hb x hx))

/-! ### The tie-breaker loop -/

theorem tieGo_lt (es : List ListResult) (cs : List Nat) (mv : Int) (w n : Nat)
    (hcs : ∀ j ∈ cs, j < n) (hw : w < n) : tieGo es cs mv w < n := by
  induction cs generalizing mv w with
  | nil => simpa [tieGo] using hw
  | cons c cs' ih =>
    by_cases hc : mv < votesAt es c
    · rw [show tieGo es (c :: cs') mv w = tieGo es cs' (votesAt es c) c by simp [tieGo, hc]]
      exact ih (votesAt es c) c (fun j hj => hcs j (by simp [hj])) (hcs c (by simp))
    · rw [show tieGo es (c :: cs') mv w = tieGo es cs' mv w by simp [tieGo, hc]]
      exact ih mv w (fun j hj => hcs j (by simp [hj])) hw

theorem tieGo_spec (es : List ListResult) (cs : List Nat) (mv : Int) (w : Nat) :
    (tieGo es cs mv w = w ∧ ∀ j ∈ cs, votesAt es j ≤ mv) ∨
    (∃ l1 l2, cs = l1 ++ tieGo es cs mv w :: l2 ∧
      mv < votesAt es (tieGo es cs mv w) ∧
      (∀ j ∈ l1, votesAt es j < votesAt es (tieGo es cs mv w)) ∧
      (∀ j ∈ l2, votesAt es j ≤ votesAt es (tieGo es cs mv w))) := by
  induction cs generalizing mv w with
  | nil => exact Or.inl ⟨by simp [tieGo], by simp⟩
  | cons c cs' ih =>
    by_cases hc : mv < votesAt es c
    · have heq : tieGo es (c :: cs') mv w = tieGo es cs' (votesAt es c) c := by
        simp [tieGo, hc]
      rw [heq]
      rcases ih (votesAt es c) c with ⟨hfix, hall⟩ | ⟨l1, l2, hsplit, hlt, h1, h2⟩
      · refine Or.inr ⟨[], cs', ?_, ?_, by simp, ?_⟩
        · simp [hfix]
        · rw [hfix]; exact hc
        · intro j hj; rw [hfix]; exact hall j hj
      · refine Or.inr ⟨c :: l1, l2, ?_, ?_, ?_, h2⟩
        · conv_lhs => rw [hsplit]
          simp
        · exact lt_trans hc hlt
        · intro j hj
          rcases List.mem_cons.mp hj with hj | hj
          · exact hj ▸ hlt
          · exact h1 j hj
    · have heq : tieGo es (c :: cs') mv w = tieGo es cs' mv w := by
        simp [tieGo, hc]
      rw [heq]
      rcases ih mv w with ⟨hfix, hall⟩ | ⟨l1, l2, hsplit, hlt, h1, h2⟩
      · refine Or.inl ⟨hfix, ?_⟩
        intro j hj
        rcases List.mem_cons.mp hj with hj | hj
        · exact hj ▸ not_lt.mp hc
        · exact hall j hj
      · refine Or.inr ⟨c :: l1, l2, ?_, hlt, ?_, h2⟩
        · conv_lhs => rw [hsplit]
          simp
        · intro j hj
          rcases List.mem_cons.mp hj with hj | hj
          · exact hj ▸ lt_of_le_of_lt (not_lt.mp hc) hlt
          · exact h1 j hj

theorem votesAt_nonneg (es : List ListResult) (hv : ∀ r ∈ es, 0 ≤ r.votes)
    (j : Nat) (hj : j < es.length) : 0 ≤ votesAt es j := by
  have : votesAt es j = (resultAt es j).votes := rfl
  rw [this, resultAt, List.getD_eq_getElem es _ hj]
  exact hv _ (List.getElem_mem hj)

/-! ### One allocation round: the winner and its characterization -/

theorem allocateRound_spec (es : List ListResult) (hne : es ≠ [])
    (hv : ∀ r ∈ es, 0 ≤ r.votes) :
    ∃ w, w < es.length ∧ allocateRound es = incSeatAt es w ∧
      quotient (resultAt es w) = (scanQuotients es).1 ∧
      (∀ k, k < es.length → quotient (resultAt es k) = (scanQuotients es).1 →
        votesAt es k ≤ votesAt es w ∧ (votesAt es k = votesAt es w → w ≤ k)) := by
  have hcands := scanQuotients_snd_ne_nil es hne hv
  have hsq : scanQuotients es = scanGo es 0 (-1) [] := rfl
  have hin : ∀ j ∈ (scanQuotients es).2,
      j < es.length ∧ quotient (resultAt es j) = (scanQuotients es).1 := by
    intro j hj
    rw [hsq] at hj ⊢
    rcases scanGo_mem_sound es 0 (-1) [] j hj with ⟨hm, _⟩ | ⟨k, hk, hjk, hq⟩
    · simp at hm
    · constructor
      · omega
      · have : j = k := by omega
        rw [this]; exact hq
  have hcomp : ∀ k, k < es.length → quotient (resultAt es k) = (scanQuotients es).1 →
      k ∈ (scanQuotients es).2 := by
    intro k hk hq
    rw [hsq] at hq ⊢
    simpa using scanGo_mem_complete es 0 (-1) [] k hk hq
  have hsorted : (scanQuotients es).2.Pairwise (· < ·) := by
    rw [hsq]; exact scanGo_sorted es 0 (-1) [] (by simp) (by simp)
  rcases hc : (scanQuotients es).2 with _ | ⟨c0, cs'⟩
  · exact absurd hc hcands
  · cases cs' with
    | nil =>
      have hc0 := hin c0 (by rw [hc]; simp)
      refine ⟨c0, hc0.1, ?_, hc0.2, ?_⟩
      · unfold allocateRound
        rw [hc]
      · intro k hk hq
        have hkm := hcomp k hk hq
        rw [hc] at hkm
        simp only [List.mem_singleton] at hkm
        subst hkm
        exact ⟨le_refl _, fun _ => le_refl _⟩
    | cons c1 cs'' =>
      have hbound : ∀ j ∈ (c0 :: c1 :: cs''), j < es.length := by
        intro j hj
        exact (hin j (by rw [hc]; exact hj)).1
      have hhead : (c0 :: c1 :: cs'').headD 0 = c0 := rfl
      rcases tieGo_spec es (c0 :: c1 :: cs'') (-1) ((c0 :: c1 :: cs'').headD 0) with
        ⟨_, hall⟩ | ⟨l1, l2, hsplit, _, h1, h2⟩
      · exfalso
        have h0 : votesAt es c0 ≤ -1 := hall c0 (by simp)
        have h0' : 0 ≤ votesAt es c0 := votesAt_nonneg es hv c0 (hbound c0 (by simp))
        omega
      · refine ⟨tieGo es (c0 :: c1 :: cs'') (-1) ((c0 :: c1 :: cs'').headD 0), ?_, ?_, ?_, ?_⟩
        · exact tieGo_lt es _ _ _ es.length hbound (hbound c0 (by simp))
        · unfold allocateRound
          rw [hc]
          rfl
        · have hw_mem0 : tieGo es (c0 :: c1 :: cs'') (-1) ((c0 :: c1 :: cs'').headD 0) ∈
              l1 ++ tieGo es (c0 :: c1 :: cs'') (-1) ((c0 :: c1 :: cs'').headD 0) :: l2 := by
            simp
          rw [← hsplit] at hw_mem0
          exact (hin _ (by rw [hc]; exact hw_mem0)).2
        · intro k hk hq
          have hkm := hcomp k hk hq
          rw [hc, hsplit] at hkm
          rcases List.mem_append.mp hkm with hk1 | hk2
          · have hlt' := h1 k hk1
            exact ⟨le_of_lt hlt', fun he => absurd he (ne_of_lt hlt')⟩
          · rcases List.mem_cons.mp hk2 with hk2 | hk2
            · rw [hk2]
              exact ⟨le_refl _, fun _ => le_refl _⟩
            · refine ⟨h2 k hk2, fun _ => ?_⟩
              have hsorted' := hsorted
              rw [hc, hsplit] at hsorted'
              have hcons := (List.pairwise_append.mp hsorted').2.1
              exact le_of_lt (List.rel_of_pairwise_cons hcons hk2)

theorem allocateRound_map_nv (es : List ListResult) :
    (allocateRound es).map nv = es.map nv := by
  unfold allocateRound
  rcases h : (scanQuotients es).2 with _ | ⟨c0, cs'⟩
  · rfl
  · cases cs' with
    | nil => exact incSeatAt_map_nv es c0
    | cons c1 cs'' => exact incSeatAt_map_nv es _

theorem allocateRound_sumSeats (es : List ListResult) (hne : es ≠ [])
    (hv : ∀ r ∈ es, 0 ≤ r.votes) :
    sumSeats (allocateRound es) = sumSeats es + 1 := by
  obtain ⟨w, hw, heq, _, _⟩ := allocateRound_spec es hne hv
  rw [heq, sumSeats_incSeatAt es w hw]

/-! ### Running all the rounds -/

theorem runRounds_map_nv (n : Nat) (es : List ListResult) :
    (runRounds n es).map nv = es.map nv := by
  induction n generalizing es with
  | zero => rfl
  | succ n ih =>
    calc (runRounds (n + 1) es).map nv
        = (runRounds n (allocateRound es)).map nv := rfl
      _ = (allocateRound es).map nv := ih _
      _ = es.map nv := allocateRound_map_nv es

theorem length_eq_of_map_nv {es es' : List ListResult}
    (h : es'.map nv = es.map nv) : es'.length = es.length := by
  have := congrArg List.length h
  simpa using this

theorem runRounds_sumSeats (n : Nat) (es : List ListResult) (hne : es ≠ [])
    (hv : ∀ r ∈ es, 0 ≤ r.votes) :
    sumSeats (runRounds n es) = sumSeats es + n := by
  induction n generalizing es with
  | zero => simp [runRounds]
  | succ n ih =>
    have hmap := allocateRound_map_nv es
    have hlen := length_eq_of_map_nv hmap
    have hne' : allocateRound es ≠ [] := by
      intro hnil
      rw [hnil] at hlen
      exact hne (List.length_eq_zero.mp hlen.symm)
    have hv' := nonneg_of_map_nv hmap hv
    calc sumSeats (runRounds (n + 1) es)
        = sumSeats (runRounds n (allocateRound es)) := rfl
      _ = sumSeats (allocateRound es) + n := ih _ hne' hv'
      _ = (sumSeats es + 1) + n := by rw [allocateRound_sumSeats es hne hv]
      _ = sumSeats es + (n + 1) := by omega

/-! ### The merge block -/

theorem sumSeats_eq_zero (l : List ListResult) (h : ∀ r ∈ l, r.seats = 0) :
    sumSeats l = 0 := by
  induction l with
  | nil => rfl
  | cons r rs ih =>
    rw [sumSeats_cons, h r (by simp), ih (fun x hx => h x (by simp [hx]))]

theorem mergeResults_nil_elig (results : List ListResult) :
    mergeResults results [] = results := by
  simp [mergeResults]

theorem mergeResults_cons (r : ListResult) (rs E : List ListResult) :
    mergeResults (r :: rs) E =
      (if E.any (fun er => er.name = r.name) then
        (E.find? fun er => er.name = r.name).getD r
      else r) :: mergeResults rs E := rfl

theorem mergeResults_skip (results : List ListResult) (e : ListResult) (E : List ListResult)
    (h : ∀ r ∈ results, r.name ≠ e.name) :
    mergeResults results (e :: E) = mergeResults results E := by
  unfold mergeResults
  apply List.map_congr_left
  intro r hr
  have hne : ¬ (e.name = r.name) := fun hh => h r hr hh.symm
  simp [List.any_cons, List.find?_cons, hne]

theorem name_inj (results : List ListResult)
    (hpw : (results.map (fun r => r.name)).Pairwise (· ≠ ·))
    (r r' : ListResult) (hr : r ∈ results) (hr' : r' ∈ results)
    (hname : r.name = r'.name) : r = r' := by
  induction results with
  | nil => simp at hr
  | cons a l ih =>
    simp only [List.map_cons, List.pairwise_cons] at hpw
    rcases List.mem_cons.mp hr with hr1 | hr1 <;> rcases List.mem_cons.mp hr' with hr2 | hr2
    · rw [hr1, hr2]
    · exfalso
      exact hpw.1 _ (List.mem_map_of_mem _ hr2) (by rw [← hr1]; exact hname)
    · exfalso
      exact hpw.1 _ (List.mem_map_of_mem _ hr1) (by rw [← hr2, hname])
    · exact ih (by exact hpw.2) hr1 hr2

theorem sumSeats_mergeResults (results E : List ListResult)
    (hpw : (results.map (fun r => r.name)).Pairwise (· ≠ ·))
    (hsub : (E.map (fun r => r.name)).Sublist (results.map (fun r => r.name)))
    (hz : ∀ r ∈ results, r.seats = 0) :
    sumSeats (mergeResults results E) = sumSeats E := by
  induction results generalizing E with
  | nil =>
    have hE : E = [] := by
      have := List.sublist_nil.mp hsub
      simpa using this
    subst hE
    rfl
  | cons r rs ih =>
    simp only [List.map_cons] at hpw hsub
    cases E with
    | nil =>
      rw [mergeResults_nil_elig, sumSeats_eq_zero _ hz]
      rfl
    | cons e E' =>
      simp only [List.map_cons] at hsub
      have hne_r : ∀ y ∈ rs.map (fun x => x.name), r.name ≠ y :=
        fun y hy => List.rel_of_pairwise_cons hpw hy
      rcases List.sublist_cons_iff.mp hsub with hsub' | ⟨t, ht, hts⟩
      · have hrn : ∀ x ∈ (e :: E'), x.name ≠ r.name := by
          intro x hx hxe
          have hx_in_rs : x.name ∈ rs.map (fun y => y.name) :=
            hsub'.subset (by simpa using List.mem_map_of_mem (fun y => y.name) hx)
          exact hne_r x.name hx_in_rs hxe.symm
        have hany : ¬ ((e :: E').any fun er => er.name = r.name) = true := by
          rw [List.any_eq_true]
          rintro ⟨x, hx, hxe⟩
          exact hrn x hx (by simpa using hxe)
        rw [mergeResults_cons, if_neg hany, sumSeats_cons, hz r (by simp),
          ih (e :: E') hpw.of_cons (by simpa using hsub') (fun x hx => hz x (by simp [hx]))]
        omega
      · have hename : e.name = r.name := by
          have := List.cons.injEq e.name (E'.map fun x => x.name) r.name t
          rw [this] at ht
          exact ht.1
        have hE't : E'.map (fun x => x.name) = t := by
          have := List.cons.injEq e.name (E'.map fun x => x.name) r.name t
          rw [this] at ht
          exact ht.2
        have hany : ((e :: E').any fun er => er.name = r.name) = true := by
          rw [List.any_eq_true]
          exact ⟨e, by simp, by simp [hename]⟩
        have hfind : ((e :: E').find? fun er => er.name = r.name) = some e := by
          simp [List.find?_cons, hename]
        have hskip : ∀ x ∈ rs, x.name ≠ e.name := by
          intro x hx hxe
          exact hne_r x.name (List.mem_map_of_mem _ hx) (by rw [hxe, hename])
        rw [mergeResults_cons, if_pos hany, hfind, mergeResults_skip rs e E' hskip,
          sumSeats_cons, Option.getD_some, sumSeats_cons,
          ih E' hpw.of_cons (by rw [hE't]; exact hts) (fun x hx => hz x (by simp [hx]))]

/-! ### The successful path of `_calculate_dhondt` -/

theorem initResults_eq_ok (lists : List Candidate) (h : ∀ c ∈ lists, 0 ≤ c.votes) :
    initResults lists = Except.ok (initList lists) :=
  initResults_ok lists h

theorem initList_map_name (lists : List Candidate) :
    (initList lists).map (fun r => r.name) = lists.map (fun c => c.name) := by
  rw [initList, List.map_map]
  rfl

theorem initList_map_votes (lists : List Candidate) :
    (initList lists).map (fun r => r.votes) = lists.map (fun c => c.votes) := by
  rw [initList, List.map_map]
  rfl

theorem initList_map_nv (lists : List Candidate) :
    (initList lists).map nv = lists.map (fun c => (c.name, c.votes)) := by
  rw [initList, List.map_map]
  rfl

theorem initList_seats (lists : List Candidate) :
    ∀ r ∈ initList lists, r.seats = 0 := by
  intro r hr
  obtain ⟨c, _, rfl⟩ := List.mem_map.mp hr
  rfl

theorem initList_nonneg (lists : List Candidate) (h : ∀ c ∈ lists, 0 ≤ c.votes) :
    ∀ r ∈ initList lists, 0 ≤ r.votes := by
  intro r hr
  obtain ⟨c, hc, rfl⟩ := List.mem_map.mp hr
  exact h c hc

theorem calculate_dhondt_success (lists : List Candidate) (ts : Int) (thr : ℚ)
    (hnn : ∀ c ∈ lists, 0 ≤ c.votes)
    (htot : (lists.map (fun c => c.votes)).sum ≠ 0)
    (hne : eligOf lists thr ≠ []) :
    calculate_dhondt lists ts thr =
      Except.ok (mergeResults (initList lists)
        (runRounds ts.toNat (eligOf lists thr))) := by
  unfold calculate_dhondt
  simp only [initResults_eq_ok lists hnn]
  have h1 : ((initList lists).foldl (fun acc r => acc + r.votes) 0) =
      (lists.map (fun c => c.votes)).sum := by
    rw [foldl_votes, initList_map_votes, zero_add]
  simp only [h1]
  rw [if_neg htot]
  have h2 : ((initList lists).filter fun r =>
      ((((lists.map (fun c => c.votes)).sum : Int) : ℚ) * (thr / 100)) ≤ (r.votes : ℚ)) =
      eligOf lists thr := rfl
  rw [h2, if_neg hne]

/-- C1: seat conservation. For a candidate list with non-negative votes and
pairwise distinct names (the data-model invariants), positive total votes,
at least one candidate at or above the threshold, and a positive
`total_seats`, `_calculate_dhondt` succeeds and the seats in its output sum
to exactly `total_seats`. -/
theorem dhondt_seat_conservation (lists : List Candidate) (ts : Int) (thr : ℚ)
    (hnn : ∀ c ∈ lists, 0 ≤ c.votes)
    (hnames : (lists.map (fun c => c.name)).Pairwise (· ≠ ·))
    (hts : 0 < ts)
    (htot : 0 < (lists.map (fun c => c.votes)).sum)
    (helig : ∃ c ∈ lists, thresholdVotes lists thr ≤ (c.votes : ℚ)) :
    ∃ out, calculate_dhondt lists ts thr = Except.ok out ∧
      (sumSeats out : Int) = ts := by
  have htot' : (lists.map (fun c => c.votes)).sum ≠ 0 := ne_of_gt htot
  have hne : eligOf lists thr ≠ [] := by
    obtain ⟨c, hc, hcth⟩ := helig
    have hmem : ({ name := c.name, votes := c.votes, seats := 0 } : ListResult) ∈
        eligOf lists thr := by
      unfold eligOf
      apply List.mem_filter.mpr
      refine ⟨List.mem_map_of_mem _ hc, ?_⟩
      simpa using hcth
    intro hnil
    rw [hnil] at hmem
    simp at hmem
  refine ⟨_, calculate_dhondt_success lists ts thr hnn htot' hne, ?_⟩
  have hpwR : ((initList lists).map (fun r => r.name)).Pairwise (· ≠ ·) := by
    rw [initList_map_name]; exact hnames
  have hEnames : (runRounds ts.toNat (eligOf lists thr)).map (fun r => r.name) =
      (eligOf lists thr).map (fun r => r.name) := by
    have h := congrArg (List.map Prod.fst) (runRounds_map_nv ts.toNat (eligOf lists thr))
    simpa [List.map_map] using h
  have hsub : ((runRounds ts.toNat (eligOf lists thr)).map (fun r => r.name)).Sublist
      ((initList lists).map (fun r => r.name)) := by
    rw [hEnames]
    exact List.Sublist.map _ (List.filter_sublist (initList lists))
  rw [sumSeats_mergeResults _ _ hpwR hsub (initList_seats lists)]
  have hvE : ∀ r ∈ eligOf lists thr, 0 ≤ r.votes := fun r hr =>
    initList_nonneg lists hnn r (List.mem_of_mem_filter hr)
  rw [runRounds_sumSeats ts.toNat _ hne hvE]
  rw [sumSeats_eq_zero (eligOf lists thr)
    (fun r hr => initList_seats lists r (List.mem_of_mem_filter hr))]
  simpa using Int.toNat_of_nonneg (le_of_lt hts)

/-- Witness for C1: `[A:2, B:1]`, three seats, threshold 3%. -/
theorem dhondt_seat_conservation_witness :
    ∃ out, calculate_dhondt [⟨"A", 2⟩, ⟨"B", 1⟩] 3 3 = Except.ok out ∧
      (sumSeats out : Int) = 3 :=
  dhondt_seat_conservation [⟨"A", 2⟩, ⟨"B", 1⟩] 3 3
    (by decide)
    (by decide)
    (by omega)
    (by decide)
    ⟨⟨"A", 2⟩, by simp, by norm_num [thresholdVotes]⟩

/-- C4: the tie-break rule. In every allocation round on a non-empty
eligible list with non-negative votes, the round increments exactly one
index `w`; `w` achieves the round's maximal quotient; every index achieving
the maximal quotient has votes at most `w`'s, and an index with votes equal
to `w`'s comes no earlier than `w` in the eligible order. Moreover, on
`[A:50, B:50]` with one seat and threshold 0 the first candidate A wins
the seat. -/
theorem dhondt_tie_break_rule :
    (∀ es : List ListResult, es ≠ [] → (∀ r ∈ es, 0 ≤ r.votes) →
      ∃ w, w < es.length ∧ allocateRound es = incSeatAt es w ∧
        quotient (resultAt es w) = (scanQuotients es).1 ∧
        (∀ k, k < es.length → quotient (resultAt es k) ≤ (scanQuotients es).1) ∧
        (∀ k, k < es.length → quotient (resultAt es k) = (scanQuotients es).1 →
          votesAt es k ≤ votesAt es w ∧ (votesAt es k = votesAt es w → w ≤ k))) ∧
    calculate_dhondt [⟨"A", 50⟩, ⟨"B", 50⟩] 1 0 =
      Except.ok [⟨"A", 50, 1⟩, ⟨"B", 50, 0⟩] := by
  constructor
  · intro es hne hv
    obtain ⟨w, h1, h2, h3, h4⟩ := allocateRound_spec es hne hv
    exact ⟨w, h1, h2, h3, fun k hk => scanGo_fst_ge es 0 (-1) [] k hk, h4⟩
  · norm_num [calculate_dhondt, initResults, mergeResults, runRounds, allocateRound,
      scanQuotients, scanGo, tieBreak, tieGo, incSeatAt, votesAt, quotient, List.find?_cons]
    simp

/-- Witness for C4's round rule at the eligible list `[A:50, B:50]`. -/
theorem dhondt_tie_break_rule_witness :
    ∃ w, w < ([⟨"A", 50, 0⟩, ⟨"B", 50, 0⟩] : List ListResult).length ∧
      allocateRound [⟨"A", 50, 0⟩, ⟨"B", 50, 0⟩] =
        incSeatAt [⟨"A", 50, 0⟩, ⟨"B", 50, 0⟩] w ∧
      quotient (resultAt [⟨"A", 50, 0⟩, ⟨"B", 50, 0⟩] w) =
        (scanQuotients [⟨"A", 50, 0⟩, ⟨"B", 50, 0⟩]).1 ∧
      (∀ k, k < ([⟨"A", 50, 0⟩, ⟨"B", 50, 0⟩] : List ListResult).length →
        quotient (resultAt [⟨"A", 50, 0⟩, ⟨"B", 50, 0⟩] k) ≤
          (scanQuotients [⟨"A", 50, 0⟩, ⟨"B", 50, 0⟩]).1) ∧
      (∀ k, k < ([⟨"A", 50, 0⟩, ⟨"B", 50, 0⟩] : List ListResult).length →
        quotient (resultAt [⟨"A", 50, 0⟩, ⟨"B", 50, 0⟩] k) =
          (scanQuotients [⟨"A", 50, 0⟩, ⟨"B", 50, 0⟩]).1 →
        votesAt [⟨"A", 50, 0⟩, ⟨"B", 50, 0⟩] k ≤
          votesAt [⟨"A", 50, 0⟩, ⟨"B", 50, 0⟩] w ∧
        (votesAt [⟨"A", 50, 0⟩, ⟨"B", 50, 0⟩] k =
          votesAt [⟨"A", 50, 0⟩, ⟨"B", 50, 0⟩] w → w ≤ k)) :=
  dhondt_tie_break_rule.1 [⟨"A", 50, 0⟩, ⟨"B", 50, 0⟩] (by decide) (by decide)

/-! ### Error characterization -/

theorem initResults_error_of_neg (lists : List Candidate)
    (h : ∃ c ∈ lists, c.votes < 0) : ∃ m, initResults lists = Except.error m := by
  induction lists with
  | nil => simp at h
  | cons c rest ih =>
    by_cases hc : c.votes < 0
    · exact ⟨"Invalid votes for " ++ c.name ++ ": votes must be non-negative",
        by simp [initResults, hc]⟩
    · obtain ⟨d, hd, hdneg⟩ := h
      rcases List.mem_cons.mp hd with rfl | hd'
      · exact absurd hdneg hc
      · obtain ⟨m, hm⟩ := ih ⟨d, hd', hdneg⟩
        exact ⟨m, by simp [initResults, hc, hm]⟩

theorem calculate_dhondt_ok_of_nonneg (lists : List Candidate) (ts : Int) (thr : ℚ)
    (hnn : ∀ c ∈ lists, 0 ≤ c.votes) :
    ∃ out, calculate_dhondt lists ts thr = Except.ok out := by
  unfold calculate_dhondt
  simp only [initResults_eq_ok lists hnn]
  split
  · exact ⟨_, rfl⟩
  · split
    · exact ⟨_, rfl⟩
    · exact ⟨_, rfl⟩

/-- C6: a candidate list with a negative-vote entry makes `_calculate_dhondt`
fail with the validation error, with a message independent of `total_seats`
and `threshold_percent` (the check precedes all allocation work), and no
result is produced. Through the aggregate entry point the failure happens
exactly when some candidate has negative votes or `total_seats` is
non-positive. -/
theorem dhondt_negative_votes_invalid :
    (∀ lists : List Candidate, (∃ c ∈ lists, c.votes < 0) →
      ∃ m, ∀ (ts : Int) (thr : ℚ), calculate_dhondt lists ts thr = Except.error m) ∧
    (∀ (lists : List Candidate) (ts : Int) (thr : ℚ),
      (∃ m, allocate lists ts thr = Except.error m) ↔
        (ts ≤ 0 ∨ ∃ c ∈ lists, c.votes < 0)) := by
  constructor
  · intro lists hneg
    obtain ⟨m, hm⟩ := initResults_error_of_neg lists hneg
    refine ⟨m, fun ts thr => ?_⟩
    unfold calculate_dhondt
    rw [hm]
  · intro lists ts thr
    constructor
    · rintro ⟨m, hm⟩
      by_cases hts : ts ≤ 0
      · exact Or.inl hts
      · right
        by_contra hneg
        push_neg at hneg
        have hnn : ∀ c ∈ lists, 0 ≤ c.votes := fun c hc => hneg c hc
        obtain ⟨out, hout⟩ := calculate_dhondt_ok_of_nonneg lists ts thr hnn
        have hok : allocate lists ts thr = Except.ok out := by
          unfold allocate mkCalculateAggregateRequest
          rw [if_pos (by omega : (0 : Int) < ts)]
          exact hout
        rw [hok] at hm
        cases hm
    · intro h
      by_cases hts : 0 < ts
      · rcases h with hts' | hneg
        · omega
        · obtain ⟨m, hm⟩ := initResults_error_of_neg lists hneg
          refine ⟨m, ?_⟩
          unfold allocate mkCalculateAggregateRequest
          rw [if_pos hts]
          unfold calculate_dhondt
          rw [hm]
      · refine ⟨"Input should be greater than 0", ?_⟩
        unfold allocate mkCalculateAggregateRequest
        rw [if_neg hts]

/-- Witness for C6 at the list `[A:-1]`. -/
theorem dhondt_negative_votes_invalid_witness :
    (∃ m, ∀ (ts : Int) (thr : ℚ),
      calculate_dhondt [⟨"A", -1⟩] ts thr = Except.error m) ∧
    ((∃ m, allocate [⟨"A", -1⟩] 5 3 = Except.error m) ↔
      ((5 : Int) ≤ 0 ∨ ∃ c ∈ [(⟨"A", -1⟩ : Candidate)], c.votes < 0)) :=
  ⟨dhondt_negative_votes_invalid.1 [⟨"A", -1⟩] ⟨⟨"A", -1⟩, by simp, by decide⟩,
   dhondt_negative_votes_invalid.2 [⟨"A", -1⟩] 5 3⟩

/-! ### Identity of names and votes through the pipeline -/

theorem calculate_dhondt_zero_total (lists : List Candidate) (ts : Int) (thr : ℚ)
    (hnn : ∀ c ∈ lists, 0 ≤ c.votes)
    (hz : (lists.map (fun c => c.votes)).sum = 0) :
    calculate_dhondt lists ts thr = Except.ok (initList lists) := by
  unfold calculate_dhondt
  simp only [initResults_eq_ok lists hnn]
  have h1 : ((initList lists).foldl (fun acc r => acc + r.votes) 0) = 0 := by
    rw [foldl_votes, initList_map_votes, zero_add, hz]
  rw [if_pos h1]

theorem calculate_dhondt_no_elig (lists : List Candidate) (ts : Int) (thr : ℚ)
    (hnn : ∀ c ∈ lists, 0 ≤ c.votes)
    (htot : (lists.map (fun c => c.votes)).sum ≠ 0)
    (hel : eligOf lists thr = []) :
    calculate_dhondt lists ts thr = Except.ok (initList lists) := by
  unfold calculate_dhondt
  simp only [initResults_eq_ok lists hnn]
  have h1 : ((initList lists).foldl (fun acc r => acc + r.votes) 0) =
      (lists.map (fun c => c.votes)).sum := by
    rw [foldl_votes, initList_map_votes, zero_add]
  simp only [h1]
  rw [if_neg htot]
  have h2 : ((initList lists).filter fun r =>
      ((((lists.map (fun c => c.votes)).sum : Int) : ℚ) * (thr / 100)) ≤ (r.votes : ℚ)) =
      eligOf lists thr := rfl
  rw [h2, if_pos hel]

theorem exists_nv_of_map_nv {es es' : List ListResult} (h : es'.map nv = es.map nv) :
    ∀ e ∈ es', ∃ x ∈ es, x.name = e.name ∧ x.votes = e.votes := by
  intro e he
  have hmem : nv e ∈ es.map nv := by
    rw [← h]; exact List.mem_map_of_mem nv he
  obtain ⟨x, hx, hxe⟩ := List.mem_map.mp hmem
  exact ⟨x, hx, congrArg Prod.fst hxe, congrArg Prod.snd hxe⟩

theorem mergeResults_map_nv (results E : List ListResult)
    (hpw : (results.map (fun r => r.name)).Pairwise (· ≠ ·))
    (hmem : ∀ e ∈ E, ∃ r ∈ results, e.name = r.name ∧ e.votes = r.votes) :
    (mergeResults results E).map nv = results.map nv := by
  unfold mergeResults
  rw [List.map_map]
  apply List.map_congr_left
  intro r hr
  simp only [Function.comp_apply]
  by_cases hany : (E.any fun er => er.name = r.name) = true
  · rw [if_pos hany]
    obtain ⟨x, hxE, hx⟩ := List.any_eq_true.mp hany
    have hsome : ∃ e, (E.find? fun er => er.name = r.name) = some e := by
      rcases hfe : E.find? fun er => er.name = r.name with _ | e
      · exact absurd hx (List.find?_eq_none.mp hfe x hxE)
      · exact ⟨e, hfe⟩
    obtain ⟨e, hfind⟩ := hsome
    rw [hfind, Option.getD_some]
    have hename : e.name = r.name := by
      simpa using List.find?_some hfind
    obtain ⟨r', hr', hn, hv⟩ := hmem e (List.mem_of_find?_eq_some hfind)
    have hrr : r' = r := name_inj results hpw r' r hr' hr (by rw [← hn, hename])
    subst hrr
    unfold nv
    rw [hename, hv]
  · rw [if_neg hany]

theorem resultAt_initList (lists : List Candidate) (i : Nat) (h : i < lists.length) :
    resultAt (initList lists) i =
      { name := (lists.getD i ⟨"", 0⟩).name,
        votes := (lists.getD i ⟨"", 0⟩).votes, seats := 0 } := by
  unfold resultAt initList
  rw [List.getD_eq_getElem _ _ (by simpa using h), List.getElem_map,
    List.getD_eq_getElem _ _ h]

theorem resultAt_mem (es : List ListResult) (i : Nat) (h : i < es.length) :
    resultAt es i ∈ es := by
  unfold resultAt
  rw [List.getD_eq_getElem _ _ h]
  exact List.getElem_mem h

theorem resultAt_mergeResults (results E : List ListResult) (i : Nat)
    (h : i < results.length) :
    resultAt (mergeResults results E) i =
      (if E.any (fun er => er.name = (resultAt results i).name) then
        (E.find? fun er => er.name = (resultAt results i).name).getD (resultAt results i)
      else resultAt results i) := by
  unfold resultAt mergeResults
  rw [List.getD_eq_getElem _ _ (by simpa using h), List.getElem_map,
    List.getD_eq_getElem _ _ h]

theorem calculate_dhondt_map_nv (lists : List Candidate) (ts : Int) (thr : ℚ)
    (hnn : ∀ c ∈ lists, 0 ≤ c.votes)
    (hnames : (lists.map (fun c => c.name)).Pairwise (· ≠ ·)) :
    ∃ out, calculate_dhondt lists ts thr = Except.ok out ∧
      out.map nv = lists.map (fun c => (c.name, c.votes)) := by
  by_cases h1 : (lists.map (fun c => c.votes)).sum = 0
  · exact ⟨initList lists, calculate_dhondt_zero_total lists ts thr hnn h1,
      initList_map_nv lists⟩
  · by_cases h2 : eligOf lists thr = []
    · exact ⟨initList lists, calculate_dhondt_no_elig lists ts thr hnn h1 h2,
        initList_map_nv lists⟩
    · refine ⟨_, calculate_dhondt_success lists ts thr hnn h1 h2, ?_⟩
      have hpwR : ((initList lists).map (fun r => r.name)).Pairwise (· ≠ ·) := by
        rw [initList_map_name]; exact hnames
      have hmem : ∀ e ∈ runRounds ts.toNat (eligOf lists thr),
          ∃ r ∈ initList lists, e.name = r.name ∧ e.votes = r.votes := by
        intro e he
        obtain ⟨x, hx, hn, hv⟩ :=
          exists_nv_of_map_nv (runRounds_map_nv ts.toNat (eligOf lists thr)) e he
        exact ⟨x, List.mem_of_mem_filter hx, hn.symm, hv.symm⟩
      rw [mergeResults_map_nv _ _ hpwR hmem, initList_map_nv]

/-- C5: threshold exclusion. On a candidate list with the data-model
invariants, `_calculate_dhondt` succeeds; every candidate whose votes are
strictly below `total_votes * threshold_percent / 100` comes out at its own
position with its name, its votes and 0 seats; and every candidate whose
votes reach that bound is a member of the computed `eligible_results`. -/
theorem dhondt_threshold_exclusion (lists : List Candidate) (ts : Int) (thr : ℚ)
    (hnn : ∀ c ∈ lists, 0 ≤ c.votes)
    (hnames : (lists.map (fun c => c.name)).Pairwise (· ≠ ·)) :
    ∃ out, calculate_dhondt lists ts thr = Except.ok out ∧
      (∀ i, i < lists.length →
        ((lists.getD i ⟨"", 0⟩).votes : ℚ) < thresholdVotes lists thr →
        resultAt out i =
          { name := (lists.getD i ⟨"", 0⟩).name,
            votes := (lists.getD i ⟨"", 0⟩).votes, seats := 0 }) ∧
      (∀ i, i < lists.length →
        thresholdVotes lists thr ≤ ((lists.getD i ⟨"", 0⟩).votes : ℚ) →
        resultAt (initList lists) i ∈ eligOf lists thr) := by
  have helig_mem : ∀ i, i < lists.length →
      thresholdVotes lists thr ≤ ((lists.getD i ⟨"", 0⟩).votes : ℚ) →
      resultAt (initList lists) i ∈ eligOf lists thr := by
    intro i hi hth
    unfold eligOf
    apply List.mem_filter.mpr
    constructor
    · exact resultAt_mem _ i (by simpa [initList] using hi)
    · rw [resultAt_initList lists i hi]
      simpa using hth
  by_cases h1 : (lists.map (fun c => c.votes)).sum = 0
  · refine ⟨initList lists, calculate_dhondt_zero_total lists ts thr hnn h1, ?_, helig_mem⟩
    intro i hi _
    exact resultAt_initList lists i hi
  · by_cases h2 : eligOf lists thr = []
    · refine ⟨initList lists, calculate_dhondt_no_elig lists ts thr hnn h1 h2, ?_, helig_mem⟩
      intro i hi _
      exact resultAt_initList lists i hi
    · refine ⟨_, calculate_dhondt_success lists ts thr hnn h1 h2, ?_, helig_mem⟩
      intro i hi hlt
      have hiR : i < (initList lists).length := by simpa [initList] using hi
      have hany : ¬ ((runRounds ts.toNat (eligOf lists thr)).any
          fun er => er.name = (resultAt (initList lists) i).name) = true := by
        rw [List.any_eq_true]
        rintro ⟨e, heE, hename⟩
        have hename' : e.name = (resultAt (initList lists) i).name := by
          simpa using hename
        obtain ⟨x, hxElig, hxn, hxv⟩ :=
          exists_nv_of_map_nv (runRounds_map_nv ts.toNat (eligOf lists thr)) e heE
        have hxR : x ∈ initList lists := List.mem_of_mem_filter hxElig
        have hpwR : ((initList lists).map (fun r => r.name)).Pairwise (· ≠ ·) := by
          rw [initList_map_name]; exact hnames
        have hxi : x = resultAt (initList lists) i :=
          name_inj _ hpwR x _ hxR (resultAt_mem _ i hiR) (by rw [hxn, hename'])
        have hxth : thresholdVotes lists thr ≤ (x.votes : ℚ) := by
          simpa using (List.mem_filter.mp hxElig).2
        rw [hxi, resultAt_initList lists i hi] at hxth
        exact absurd hxth (not_le.mpr hlt)
      rw [resultAt_mergeResults _ _ i hiR, if_neg hany, resultAt_initList lists i hi]

/-- Witness for C5: the Example-1 input, where C (2000 < 3210) is excluded
and A, B (≥ 3210) are eligible. -/
theorem dhondt_threshold_exclusion_witness :
    ∃ out, calculate_dhondt [⟨"A", 100000⟩, ⟨"B", 5000⟩, ⟨"C", 2000⟩] 5 3 =
        Except.ok out ∧
      (∀ i, i < ([⟨"A", 100000⟩, ⟨"B", 5000⟩, ⟨"C", 2000⟩] : List Candidate).length →
        ((([⟨"A", 100000⟩, ⟨"B", 5000⟩, ⟨"C", 2000⟩] : List Candidate).getD i
            ⟨"", 0⟩).votes : ℚ) <
          thresholdVotes [⟨"A", 100000⟩, ⟨"B", 5000⟩, ⟨"C", 2000⟩] 3 →
        resultAt out i =
          { name := (([⟨"A", 100000⟩, ⟨"B", 5000⟩, ⟨"C", 2000⟩] : List Candidate).getD i
              ⟨"", 0⟩).name,
            votes := (([⟨"A", 100000⟩, ⟨"B", 5000⟩, ⟨"C", 2000⟩] : List Candidate).getD i
              ⟨"", 0⟩).votes, seats := 0 }) ∧
      (∀ i, i < ([⟨"A", 100000⟩, ⟨"B", 5000⟩, ⟨"C", 2000⟩] : List Candidate).length →
        thresholdVotes [⟨"A", 100000⟩, ⟨"B", 5000⟩, ⟨"C", 2000⟩] 3 ≤
          ((([⟨"A", 100000⟩, ⟨"B", 5000⟩, ⟨"C", 2000⟩] : List Candidate).getD i
            ⟨"", 0⟩).votes : ℚ) →
        resultAt (initList [⟨"A", 100000⟩, ⟨"B", 5000⟩, ⟨"C", 2000⟩]) i ∈
          eligOf [⟨"A", 100000⟩, ⟨"B", 5000⟩, ⟨"C", 2000⟩] 3) :=
  dhondt_threshold_exclusion [⟨"A", 100000⟩, ⟨"B", 5000⟩, ⟨"C", 2000⟩] 5 3
    (by decide) (by decide)

/-- C9: output identity and frame. On a candidate list with the data-model
invariants, `_calculate_dhondt` succeeds and the name-votes projection of
its output is exactly the input's name-votes list (one result per input
candidate, same names and votes, nothing added or dropped); the empty list
is accepted and gives the empty result list. -/
theorem dhondt_output_identity :
    (∀ (lists : List Candidate) (ts : Int) (thr : ℚ),
      (∀ c ∈ lists, 0 ≤ c.votes) →
      ((lists.map (fun c => c.name)).Pairwise (· ≠ ·)) →
      ∃ out, calculate_dhondt lists ts thr = Except.ok out ∧
        out.map nv = lists.map (fun c => (c.name, c.votes))) ∧
    (∀ (ts : Int) (thr : ℚ), calculate_dhondt [] ts thr = Except.ok []) := by
  constructor
  · intro lists ts thr hnn hnames
    exact calculate_dhondt_map_nv lists ts thr hnn hnames
  · intro ts thr
    rfl

/-- Witness for C9 at `[A:1, B:0]`. -/
theorem dhondt_output_identity_witness :
    ∃ out, calculate_dhondt [⟨"A", 1⟩, ⟨"B", 0⟩] 2 3 = Except.ok out ∧
      out.map nv =
        ([⟨"A", 1⟩, ⟨"B", 0⟩] : List Candidate).map (fun c => (c.name, c.votes)) :=
  dhondt_output_identity.1 [⟨"A", 1⟩, ⟨"B", 0⟩] 2 3 (by decide) (by decide)

/-- C10: the output order equals the input order. On a candidate list with
the data-model invariants, the result list has one entry per input position
and the entry at position `i` carries the name and votes of the input
candidate at position `i` (the merge iterates over the original list). -/
theorem dhondt_output_order_preserved (lists : List Candidate) (ts : Int) (thr : ℚ)
    (hnn : ∀ c ∈ lists, 0 ≤ c.votes)
    (hnames : (lists.map (fun c => c.name)).Pairwise (· ≠ ·)) :
    ∃ out, calculate_dhondt lists ts thr = Except.ok out ∧
      out.length = lists.length ∧
      ∀ i, i < lists.length →
        (resultAt out i).name = (lists.getD i ⟨"", 0⟩).name ∧
        (resultAt out i).votes = (lists.getD i ⟨"", 0⟩).votes := by
  obtain ⟨out, hok, hmap⟩ := calculate_dhondt_map_nv lists ts thr hnn hnames
  have hlen : out.length = lists.length := by
    simpa using congrArg List.length hmap
  refine ⟨out, hok, hlen, ?_⟩
  intro i hi
  have hio : i < out.length := by omega
  have h1 : (out.map nv).getD i ("", 0) = nv (resultAt out i) := by
    unfold resultAt
    rw [List.getD_eq_getElem _ _ (by simpa using hio), List.getElem_map,
      List.getD_eq_getElem _ _ hio]
  have h2 : ((lists.map (fun c => (c.name, c.votes))).getD i ("", 0)) =
      ((lists.getD i ⟨"", 0⟩).name, (lists.getD i ⟨"", 0⟩).votes) := by
    rw [List.getD_eq_getElem _ _ (by simpa using hi), List.getElem_map,
      List.getD_eq_getElem _ _ hi]
  have hnvi : nv (resultAt out i) =
      ((lists.getD i ⟨"", 0⟩).name, (lists.getD i ⟨"", 0⟩).votes) := by
    rw [← h1, hmap, h2]
  exact ⟨congrArg Prod.fst hnvi, congrArg Prod.snd hnvi⟩

/-- Witness for C10 at `[A:3, B:1]` with threshold 0. -/
theorem dhondt_output_order_preserved_witness :
    ∃ out, calculate_dhondt [⟨"A", 3⟩, ⟨"B", 1⟩] 4 0 = Except.ok out ∧
      out.length = ([⟨"A", 3⟩, ⟨"B", 1⟩] : List Candidate).length ∧
      ∀ i, i < ([⟨"A", 3⟩, ⟨"B", 1⟩] : List Candidate).length →
        (resultAt out i).name =
          (([⟨"A", 3⟩, ⟨"B", 1⟩] : List Candidate).getD i ⟨"", 0⟩).name ∧
        (resultAt out i).votes =
          (([⟨"A", 3⟩, ⟨"B", 1⟩] : List Candidate).getD i ⟨"", 0⟩).votes :=
  dhondt_output_order_preserved [⟨"A", 3⟩, ⟨"B", 1⟩] 4 0 (by decide) (by decide)

/-! ### The priority order -/

theorem beats_asymm {a b : ℚ × Int × Nat} (h1 : beats a b) (h2 : beats b a) : False := by
  rcases h1 with h1 | ⟨hq1, h1⟩
  · rcases h2 with h2 | ⟨hq2, _⟩
    · exact absurd (lt_trans h1 h2) (lt_irrefl _)
    · exact absurd h1 (by rw [hq2]; exact lt_irrefl _)
  · rcases h2 with h2 | ⟨_, h2⟩
    · exact absurd h2 (by rw [hq1]; exact lt_irrefl _)
    · rcases h1 with h1 | ⟨hv1, h1⟩
      · rcases h2 with h2 | ⟨hv2, _⟩
        · exact absurd (lt_trans h1 h2) (lt_irrefl _)
        · exact absurd h1 (by rw [hv2]; exact lt_irrefl _)
      · rcases h2 with h2 | ⟨_, h2⟩
        · exact absurd h2 (by rw [hv1]; exact lt_irrefl _)
        · omega

theorem beats_target_le {a b c : ℚ × Int × Nat} (h : beats a b)
    (hq : c.1 ≤ b.1) (hv : c.2.1 = b.2.1) (hi : c.2.2 = b.2.2) : beats a c := by
  rcases h with h | ⟨hqe, h⟩
  · exact Or.inl (lt_of_le_of_lt hq h)
  · rcases lt_or_eq_of_le hq with hq' | hq'
    · exact Or.inl (by rw [← hqe]; exact hq')
    · refine Or.inr ⟨by rw [hq', hqe], ?_⟩
      rcases h with h | ⟨hve, h⟩
      · exact Or.inl (by rw [hv]; exact h)
      · exact Or.inr ⟨by rw [hv, hve], by rw [hi]; exact h⟩

theorem beats_source_le {a b c : ℚ × Int × Nat} (h : beats a b)
    (hq : a.1 ≤ c.1) (hv : a.2.1 ≤ c.2.1) (hi : a.2.2 = c.2.2) : beats c b := by
  rcases h with h | ⟨hqe, h⟩
  · exact Or.inl (lt_of_lt_of_le h hq)
  · rcases lt_or_eq_of_le hq with hq' | hq'
    · exact Or.inl (by rw [hqe]; exact hq')
    · refine Or.inr ⟨by rw [hqe, hq'], ?_⟩
      rcases h with h | ⟨hve, h⟩
      · rcases lt_or_eq_of_le hv with hv' | hv'
        · exact Or.inl (lt_trans h hv')
        · exact Or.inl (by rw [← hv']; exact h)
      · rcases lt_or_eq_of_le hv with hv' | hv'
        · exact Or.inl (by rw [hve]; exact hv')
        · exact Or.inr ⟨by rw [hve, hv'], by rw [← hi]; exact h⟩

theorem beats_reindex {q1 q2 : ℚ} {v1 v2 : Int} {e1 e2 i1 i2 : Nat}
    (h : beats (q1, v1, e1) (q2, v2, e2)) (hord : e1 < e2 → i1 < i2) :
    beats (q1, v1, i1) (q2, v2, i2) := by
  rcases h with h | ⟨hq, h⟩
  · exact Or.inl h
  · rcases h with h | ⟨hv, h⟩
    · exact Or.inr ⟨hq, Or.inl h⟩
    · exact Or.inr ⟨hq, Or.inr ⟨hv, hord h⟩⟩

theorem prio_deeper {v : Int} {idx : Nat} (hv : 0 ≤ v) (d d' : Nat)
    (hd : 1 ≤ d) (hdd : d ≤ d') :
    (prio v idx d').1 ≤ (prio v idx d).1 := by
  unfold prio
  have h0 : (0 : ℚ) < (d : ℚ) := by exact_mod_cast hd
  have h1 : (d : ℚ) ≤ (d' : ℚ) := by exact_mod_cast hdd
  have hv' : (0 : ℚ) ≤ (v : ℚ) := by exact_mod_cast hv
  rw [div_eq_mul_inv, div_eq_mul_inv]
  apply mul_le_mul_of_nonneg_left _ hv'
  exact inv_anti₀ h0 h1

/-! ### Positional behaviour of a round -/

theorem seatsAt_incSeatAt (es : List ListResult) (w j : Nat) (hj : j < es.length) :
    seatsAt (incSeatAt es w) j =
      if j = w then seatsAt es j + 1 else seatsAt es j := by
  induction es generalizing w j with
  | nil => simp at hj
  | cons r rest ih =>
    cases w with
    | zero =>
      cases j with
      | zero => simp [incSeatAt, seatsAt, resultAt]
      | succ n => simp [incSeatAt, seatsAt, resultAt]
    | succ w' =>
      cases j with
      | zero => simp [incSeatAt, seatsAt, resultAt]
      | succ n =>
        have hn : n < rest.length := by simpa using hj
        have := ih w' n hn
        simp only [incSeatAt, seatsAt, resultAt, List.getD_cons_succ] at this ⊢
        simpa [Nat.succ_inj] using this

theorem votesAt_incSeatAt (es : List ListResult) (w j : Nat) :
    votesAt (incSeatAt es w) j = votesAt es j := by
  induction es generalizing w j with
  | nil => cases w <;> rfl
  | cons r rest ih =>
    cases w with
    | zero =>
      cases j with
      | zero => rfl
      | succ n => rfl
    | succ w' =>
      cases j with
      | zero => rfl
      | succ n =>
        simpa [incSeatAt, votesAt, List.getD_cons_succ] using ih w' n

theorem prio_fst_eq_quotient (es : List ListResult) (j : Nat) :
    (prio (votesAt es j) j (seatsAt es j + 1)).1 = quotient (resultAt es j) := by
  unfold prio quotient votesAt seatsAt resultAt
  push_cast
  ring

theorem InvP_of_zero (es : List ListResult) (hz : ∀ r ∈ es, r.seats = 0) : InvP es := by
  intro j j' hj hj' d hd1 hd2
  exfalso
  have : seatsAt es j = 0 := hz _ (resultAt_mem es j hj)
  omega

theorem allocateRound_inv (es : List ListResult)
    (hv : ∀ r ∈ es, 0 ≤ r.votes) (hpos : ∃ r ∈ es, 0 < r.votes)
    (hInv : InvP es) : InvP (allocateRound es) := by
  have hne : es ≠ [] := by rintro rfl; simp at hpos
  obtain ⟨w, hwlen, heq, hqw, htie⟩ := allocateRound_spec es hne hv
  obtain ⟨rp, hrp, hrpos⟩ := hpos
  obtain ⟨jp, hjp, hjpe⟩ := List.mem_iff_getElem.mp hrp
  have hvjp : 0 < votesAt es jp := by
    unfold votesAt
    rw [List.getD_eq_getElem _ _ hjp, hjpe]
    exact hrpos
  have hqjp : 0 < quotient (resultAt es jp) := by
    unfold quotient
    apply div_pos
    · exact_mod_cast hvjp
    · positivity
  have hqw_pos : 0 < quotient (resultAt es w) := by
    rw [hqw]
    exact lt_of_lt_of_le hqjp (scanGo_fst_ge es 0 (-1) [] jp hjp)
  have hvw_pos : 0 < votesAt es w := by
    by_contra hle
    push_neg at hle
    have hq0 : quotient (resultAt es w) ≤ 0 := by
      unfold quotient
      apply div_nonpos_of_nonpos_of_nonneg
      · exact_mod_cast hle
      · positivity
    exact absurd hqw_pos (not_lt.mpr hq0)
  have hfrontier : ∀ j', j' < es.length → j' ≠ w →
      beats (prio (votesAt es w) w (seatsAt es w + 1))
        (prio (votesAt es j') j' (seatsAt es j' + 1)) := by
    intro j' hj' hj'w
    have hle : quotient (resultAt es j') ≤ quotient (resultAt es w) := by
      rw [hqw]
      exact scanGo_fst_ge es 0 (-1) [] j' hj'
    rcases lt_or_eq_of_le hle with hlt | heq2
    · exact Or.inl (by rw [prio_fst_eq_quotient, prio_fst_eq_quotient]; exact hlt)
    · have htied := htie j' hj' (by rw [heq2, hqw])
      refine Or.inr ⟨by rw [prio_fst_eq_quotient, prio_fst_eq_quotient]; exact heq2, ?_⟩
      rcases lt_or_eq_of_le htied.1 with hvlt | hveq
      · exact Or.inl hvlt
      · have hwle := htied.2 hveq
        exact Or.inr ⟨hveq, lt_of_le_of_ne hwle (fun hh => hj'w hh.symm)⟩
  have hself : beats (prio (votesAt es w) w (seatsAt es w + 1))
      (prio (votesAt es w) w (seatsAt es w + 1 + 1)) := by
    apply Or.inl
    unfold prio
    apply div_lt_div_of_pos_left
    · exact_mod_cast hvw_pos
    · positivity
    · exact_mod_cast Nat.lt_succ_self _
  rw [heq]
  intro j j' hj hj' d hd1 hd2
  rw [incSeatAt_length] at hj hj'
  rw [votesAt_incSeatAt, votesAt_incSeatAt]
  rw [seatsAt_incSeatAt es w j hj] at hd2
  rw [seatsAt_incSeatAt es w j' hj']
  by_cases hjw : j = w
  · subst hjw
    rw [if_pos rfl] at hd2
    by_cases hj'w : j' = j
    · subst hj'w
      rw [if_pos rfl]
      by_cases hdold : d ≤ seatsAt es j'
      · exact beats_target_le (hInv j' j' hj hj' d hd1 hdold)
          (prio_deeper (le_of_lt hvw_pos) _ _ (by omega) (by omega)) rfl rfl
      · have hdnew : d = seatsAt es j' + 1 := by omega
        rw [hdnew]
        exact hself
    · rw [if_neg hj'w]
      by_cases hdold : d ≤ seatsAt es j
      · exact hInv j j' hj hj' d hd1 hdold
      · have hdnew : d = seatsAt es j + 1 := by omega
        rw [hdnew]
        exact hfrontier j' hj' hj'w
  · rw [if_neg hjw] at hd2
    by_cases hj'w : j' = w
    · subst hj'w
      rw [if_pos rfl]
      exact beats_target_le (hInv j j' hj hj' d hd1 hd2)
        (prio_deeper (votesAt_nonneg es hv j' hj') _ _ (by omega) (by omega)) rfl rfl
    · rw [if_neg hj'w]
      exact hInv j j' hj hj' d hd1 hd2

theorem runRounds_inv (n : Nat) (es : List ListResult)
    (hv : ∀ r ∈ es, 0 ≤ r.votes) (hpos : ∃ r ∈ es, 0 < r.votes) (hInv : InvP es) :
    InvP (runRounds n es) := by
  induction n generalizing es with
  | zero => exact hInv
  | succ n ih =>
    have hmap := allocateRound_map_nv es
    have hv' := nonneg_of_map_nv hmap hv
    have hpos' : ∃ r ∈ allocateRound es, 0 < r.votes := by
      obtain ⟨r, hr, hrpos⟩ := hpos
      obtain ⟨x, hx, hn, hveq⟩ := exists_nv_of_map_nv hmap.symm r hr
      exact ⟨x, hx, by rw [hveq]; exact hrpos⟩
    exact ih (allocateRound es) hv' hpos' (allocateRound_inv es hv hpos hInv)

/-! ### Lifting the invariant to the merged output -/

theorem resultAt_nv_eq {es es' : List ListResult} (h : es'.map nv = es.map nv)
    (j : Nat) (hj : j < es.length) :
    nv (resultAt es' j) = nv (resultAt es j) := by
  have hj' : j < es'.length := by rw [length_eq_of_map_nv h]; exact hj
  have e1 : (es'.map nv).getD j ("", 0) = nv (resultAt es' j) := by
    unfold resultAt
    rw [List.getD_eq_getElem _ _ (by simpa using hj'), List.getElem_map,
      List.getD_eq_getElem _ _ hj']
  have e2 : (es.map nv).getD j ("", 0) = nv (resultAt es j) := by
    unfold resultAt
    rw [List.getD_eq_getElem _ _ (by simpa using hj), List.getElem_map,
      List.getD_eq_getElem _ _ hj]
  rw [← e1, h, e2]

theorem countP_filter_getD (p : ListResult → Bool) (l : List ListResult) (j : Nat)
    (hj : j < l.length) (hpj : p (resultAt l j) = true) :
    ((l.take j).countP p) < (l.filter p).length ∧
    resultAt (l.filter p) ((l.take j).countP p) = resultAt l j := by
  induction l generalizing j with
  | nil => simp at hj
  | cons a l' ih =>
    cases j with
    | zero =>
      have hpa : p a = true := by simpa [resultAt] using hpj
      constructor
      · simp [List.filter_cons, hpa]
      · simp [List.filter_cons, hpa, resultAt]
    | succ j' =>
      have hj' : j' < l'.length := by simpa using hj
      have hpj' : p (resultAt l' j') = true := by simpa [resultAt] using hpj
      obtain ⟨ih1, ih2⟩ := ih j' hj' hpj'
      have htake : (a :: l').take (j' + 1) = a :: l'.take j' := rfl
      have htarget : resultAt (a :: l') (j' + 1) = resultAt l' j' := by
        simp [resultAt]
      rw [htake, htarget]
      by_cases hpa : p a = true
      · constructor
        · simp only [List.countP_cons, List.filter_cons, hpa, if_pos, List.length_cons]
          omega
        · simp only [List.countP_cons, List.filter_cons, hpa, if_pos]
          have : (l'.take j').countP p + 1 = ((l'.take j').countP p) + 1 := rfl
          simpa [resultAt] using ih2
      · have hpa' : p a = false := by simpa using hpa
        constructor
        · simpa [List.countP_cons, List.filter_cons, hpa'] using ih1
        · simpa [List.countP_cons, List.filter_cons, hpa'] using ih2

theorem countP_take_lt (p : ListResult → Bool) (l : List ListResult) (j1 j2 : Nat)
    (h12 : j1 < j2) (hj1 : j1 < l.length) (hpj1 : p (resultAt l j1) = true) :
    (l.take j1).countP p < (l.take j2).countP p := by
  induction l generalizing j1 j2 with
  | nil => simp at hj1
  | cons a l' ih =>
    cases j1 with
    | zero =>
      cases j2 with
      | zero => omega
      | succ j2' =>
        have hpa : p a = true := by simpa [resultAt] using hpj1
        simp [List.countP_cons, hpa]
    | succ j1' =>
      cases j2 with
      | zero => omega
      | succ j2' =>
        have hih := ih j1' j2' (by omega) (by simpa using hj1)
          (by simpa [resultAt] using hpj1)
        by_cases hpa : p a = true
        · simpa [List.countP_cons, hpa] using hih
        · have hpa' : p a = false := by simpa using hpa
          simpa [List.countP_cons, hpa'] using hih

theorem find?_name_resultAt (F : List ListResult)
    (hpw : (F.map (fun r => r.name)).Pairwise (· ≠ ·)) (e : Nat) (he : e < F.length) :
    (F.find? fun er => er.name = (resultAt F e).name) = some (resultAt F e) := by
  induction F generalizing e with
  | nil => simp at he
  | cons a F' ih =>
    cases e with
    | zero =>
      simp [resultAt, List.find?_cons]
    | succ e' =>
      have he' : e' < F'.length := by simpa using he
      have htarget : resultAt (a :: F') (e' + 1) = resultAt F' e' := by simp [resultAt]
      rw [htarget]
      simp only [List.map_cons, List.pairwise_cons] at hpw
      have hne : ¬ (a.name = (resultAt F' e').name) := fun hh =>
        hpw.1 _ (List.mem_map_of_mem _ (resultAt_mem F' e' he')) hh
      rw [List.find?_cons]
      simpa [hne] using ih hpw.2 e' he'

theorem elig_resultAt (lists : List Candidate) (thr : ℚ) (j : Nat)
    (hj : j < lists.length)
    (he : thresholdVotes lists thr ≤ (((lists.getD j ⟨"", 0⟩).votes : Int) : ℚ)) :
    eIdx lists thr j < (eligOf lists thr).length ∧
    resultAt (eligOf lists thr) (eIdx lists thr j) = resultAt (initList lists) j := by
  unfold eIdx eligOf
  apply countP_filter_getD
  · simpa [initList] using hj
  · rw [resultAt_initList lists j hj]
    simpa using he

theorem eligOf_names_pairwise (lists : List Candidate) (thr : ℚ)
    (hnames : (lists.map (fun c => c.name)).Pairwise (· ≠ ·)) :
    ((eligOf lists thr).map (fun r => r.name)).Pairwise (· ≠ ·) := by
  have hpwR : ((initList lists).map (fun r => r.name)).Pairwise (· ≠ ·) := by
    rw [initList_map_name]; exact hnames
  exact hpwR.sublist (List.Sublist.map _ (List.filter_sublist _))

theorem rounds_names_pairwise (lists : List Candidate) (ts : Int) (thr : ℚ)
    (hnames : (lists.map (fun c => c.name)).Pairwise (· ≠ ·)) :
    ((runRounds ts.toNat (eligOf lists thr)).map (fun r => r.name)).Pairwise (· ≠ ·) := by
  have hE := runRounds_map_nv ts.toNat (eligOf lists thr)
  have hn : (runRounds ts.toNat (eligOf lists thr)).map (fun r => r.name) =
      (eligOf lists thr).map (fun r => r.name) := by
    have := congrArg (List.map Prod.fst) hE
    simpa [List.map_map] using this
  rw [hn]
  exact eligOf_names_pairwise lists thr hnames

theorem out_resultAt_elig (lists : List Candidate) (ts : Int) (thr : ℚ)
    (hnames : (lists.map (fun c => c.name)).Pairwise (· ≠ ·))
    (j : Nat) (hj : j < lists.length)
    (he : thresholdVotes lists thr ≤ (((lists.getD j ⟨"", 0⟩).votes : Int) : ℚ)) :
    resultAt (mergeResults (initList lists) (runRounds ts.toNat (eligOf lists thr))) j =
      resultAt (runRounds ts.toNat (eligOf lists thr)) (eIdx lists thr j) := by
  obtain ⟨helt, heeq⟩ := elig_resultAt lists thr j hj he
  have hFE := runRounds_map_nv ts.toNat (eligOf lists thr)
  have hFname : (resultAt (runRounds ts.toNat (eligOf lists thr)) (eIdx lists thr j)).name =
      (resultAt (initList lists) j).name := by
    have h1 := congrArg Prod.fst (resultAt_nv_eq hFE (eIdx lists thr j) helt)
    rw [heeq] at h1
    exact h1
  have hjR : j < (initList lists).length := by simpa [initList] using hj
  have heltF : eIdx lists thr j < (runRounds ts.toNat (eligOf lists thr)).length := by
    rw [length_eq_of_map_nv hFE]
    exact helt
  rw [resultAt_mergeResults (initList lists) _ j hjR]
  have hany : ((runRounds ts.toNat (eligOf lists thr)).any
      fun er => er.name = (resultAt (initList lists) j).name) = true := by
    rw [List.any_eq_true]
    exact ⟨_, resultAt_mem _ _ heltF, by simp [hFname]⟩
  rw [if_pos hany]
  have hfind : ((runRounds ts.toNat (eligOf lists thr)).find?
      fun er => er.name = (resultAt (initList lists) j).name) =
      some (resultAt (runRounds ts.toNat (eligOf lists thr)) (eIdx lists thr j)) := by
    rw [← hFname]
    exact find?_name_resultAt _ (rounds_names_pairwise lists ts thr hnames) _ heltF
  rw [hfind, Option.getD_some]

theorem out_resultAt_not_elig (lists : List Candidate) (ts : Int) (thr : ℚ)
    (hnames : (lists.map (fun c => c.name)).Pairwise (· ≠ ·))
    (j : Nat) (hj : j < lists.length)
    (he : ¬ thresholdVotes lists thr ≤ (((lists.getD j ⟨"", 0⟩).votes : Int) : ℚ)) :
    resultAt (mergeResults (initList lists) (runRounds ts.toNat (eligOf lists thr))) j =
      resultAt (initList lists) j := by
  have hjR : j < (initList lists).length := by simpa [initList] using hj
  have hany : ¬ ((runRounds ts.toNat (eligOf lists thr)).any
      fun er => er.name = (resultAt (initList lists) j).name) = true := by
    rw [List.any_eq_true]
    rintro ⟨e, heE, hename⟩
    have hename' : e.name = (resultAt (initList lists) j).name := by simpa using hename
    obtain ⟨x, hxElig, hxn, hxv⟩ :=
      exists_nv_of_map_nv (runRounds_map_nv ts.toNat (eligOf lists thr)) e heE
    have hxR : x ∈ initList lists := List.mem_of_mem_filter hxElig
    have hpwR : ((initList lists).map (fun r => r.name)).Pairwise (· ≠ ·) := by
      rw [initList_map_name]; exact hnames
    have hxi : x = resultAt (initList lists) j :=
      name_inj _ hpwR x _ hxR (resultAt_mem _ j hjR) (by rw [hxn, hename'])
    have hxth : thresholdVotes lists thr ≤ (x.votes : ℚ) := by
      simpa using (List.mem_filter.mp hxElig).2
    rw [hxi, resultAt_initList lists j hj] at hxth
    exact he hxth
  rw [resultAt_mergeResults (initList lists) _ j hjR, if_neg hany]

theorem eligOf_exists_pos (lists : List Candidate) (thr : ℚ)
    (hnn : ∀ c ∈ lists, 0 ≤ c.votes)
    (hT : 0 < (lists.map (fun c => c.votes)).sum)
    (hne : eligOf lists thr ≠ []) :
    ∃ r ∈ eligOf lists thr, 0 < r.votes := by
  by_contra hall
  push_neg at hall
  obtain ⟨cpos, hcpos, hcv⟩ : ∃ c ∈ lists, 0 < c.votes := by
    by_contra hnopos
    push_neg at hnopos
    have hz : ∀ c ∈ lists, c.votes = 0 := fun c hc =>
      le_antisymm (hnopos c hc) (hnn c hc)
    have : (lists.map (fun c => c.votes)).sum = 0 := by
      apply List.sum_eq_zero
      intro x hx
      obtain ⟨c, hc, rfl⟩ := List.mem_map.mp hx
      exact hz c hc
    omega
  obtain ⟨e0, he0⟩ := List.exists_mem_of_ne_nil _ hne
  have he0v : e0.votes = 0 :=
    le_antisymm (hall e0 he0) (initList_nonneg lists hnn e0 (List.mem_of_mem_filter he0))
  have hth0 : thresholdVotes lists thr ≤ 0 := by
    have := (List.mem_filter.mp he0).2
    have h2 : thresholdVotes lists thr ≤ (e0.votes : ℚ) := by simpa using this
    rw [he0v] at h2
    simpa using h2
  have hcmem : ({ name := cpos.name, votes := cpos.votes, seats := 0 } : ListResult) ∈
      eligOf lists thr := by
    unfold eligOf
    apply List.mem_filter.mpr
    refine ⟨List.mem_map_of_mem _ hcpos, ?_⟩
    simp only [decide_eq_true_eq]
    calc thresholdVotes lists thr ≤ 0 := hth0
      _ ≤ (cpos.votes : ℚ) := by exact_mod_cast le_of_lt hcv
  have := hall _ hcmem
  simp only at this
  omega

theorem out_inv (lists : List Candidate) (ts : Int) (thr : ℚ)
    (hnn : ∀ c ∈ lists, 0 ≤ c.votes)
    (hnames : (lists.map (fun c => c.name)).Pairwise (· ≠ ·))
    (hT : 0 < (lists.map (fun c => c.votes)).sum)
    (j j' : Nat) (hj : j < lists.length) (hj' : j' < lists.length)
    (hej : thresholdVotes lists thr ≤ (((lists.getD j ⟨"", 0⟩).votes : Int) : ℚ))
    (hej' : thresholdVotes lists thr ≤ (((lists.getD j' ⟨"", 0⟩).votes : Int) : ℚ))
    (d : Nat) (hd1 : 1 ≤ d)
    (hd2 : d ≤ seatsAt
      (mergeResults (initList lists) (runRounds ts.toNat (eligOf lists thr))) j) :
    beats (prio ((lists.getD j ⟨"", 0⟩).votes) j d)
      (prio ((lists.getD j' ⟨"", 0⟩).votes) j'
        (seatsAt (mergeResults (initList lists)
          (runRounds ts.toNat (eligOf lists thr))) j' + 1)) := by
  obtain ⟨helt, heeq⟩ := elig_resultAt lists thr j hj hej
  obtain ⟨helt', heeq'⟩ := elig_resultAt lists thr j' hj' hej'
  have hne : eligOf lists thr ≠ [] := by
    intro hnil; rw [hnil] at helt; simp at helt
  have hvE : ∀ r ∈ eligOf lists thr, 0 ≤ r.votes := fun r hr =>
    initList_nonneg lists hnn r (List.mem_of_mem_filter hr)
  have hpos := eligOf_exists_pos lists thr hnn hT hne
  have hzE : ∀ r ∈ eligOf lists thr, r.seats = 0 := fun r hr =>
    initList_seats lists r (List.mem_of_mem_filter hr)
  have hInvF : InvP (runRounds ts.toNat (eligOf lists thr)) :=
    runRounds_inv _ _ hvE hpos (InvP_of_zero _ hzE)
  have hFE := runRounds_map_nv ts.toNat (eligOf lists thr)
  have hlenF := length_eq_of_map_nv hFE
  have hsj : seatsAt (mergeResults (initList lists)
      (runRounds ts.toNat (eligOf lists thr))) j =
      seatsAt (runRounds ts.toNat (eligOf lists thr)) (eIdx lists thr j) := by
    unfold seatsAt
    rw [out_resultAt_elig lists ts thr hnames j hj hej]
  have hsj' : seatsAt (mergeResults (initList lists)
      (runRounds ts.toNat (eligOf lists thr))) j' =
      seatsAt (runRounds ts.toNat (eligOf lists thr)) (eIdx lists thr j') := by
    unfold seatsAt
    rw [out_resultAt_elig lists ts thr hnames j' hj' hej']
  have hvj : votesAt (runRounds ts.toNat (eligOf lists thr)) (eIdx lists thr j) =
      (lists.getD j ⟨"", 0⟩).votes := by
    have h1 := congrArg Prod.snd (resultAt_nv_eq hFE _ helt)
    rw [heeq, resultAt_initList lists j hj] at h1
    exact h1
  have hvj' : votesAt (runRounds ts.toNat (eligOf lists thr)) (eIdx lists thr j') =
      (lists.getD j' ⟨"", 0⟩).votes := by
    have h1 := congrArg Prod.snd (resultAt_nv_eq hFE _ helt')
    rw [heeq', resultAt_initList lists j' hj'] at h1
    exact h1
  have happly := hInvF (eIdx lists thr j) (eIdx lists thr j')
    (by rw [hlenF]; exact helt) (by rw [hlenF]; exact helt') d hd1
    (by rw [← hsj]; exact hd2)
  rw [hvj, hvj'] at happly
  rw [hsj']
  have hord : eIdx lists thr j < eIdx lists thr j' → j < j' := by
    intro hlt
    by_contra hge
    push_neg at hge
    rcases lt_or_eq_of_le hge with h | h
    · have hx : eIdx lists thr j' < eIdx lists thr j := by
        unfold eIdx
        apply countP_take_lt _ _ _ _ h (by simpa [initList] using hj')
        rw [resultAt_initList lists j' hj']
        simpa using hej'
      omega
    · rw [h] at hlt
      omega
  unfold prio at happly ⊢
  exact beats_reindex happly hord

theorem sumSeats_eq_range_sum (l : List ListResult) :
    sumSeats l = Finset.sum (Finset.range l.length) (fun j => seatsAt l j) := by
  induction l with
  | nil => simp [sumSeats]
  | cons r rs ih =>
    rw [sumSeats_cons, ih, List.length_cons, Finset.sum_range_succ']
    simp only [seatsAt, resultAt, List.getD_cons_succ, List.getD_cons_zero]
    omega

theorem sumSeats_merged (lists : List Candidate) (ts : Int) (thr : ℚ)
    (hnn : ∀ c ∈ lists, 0 ≤ c.votes)
    (hnames : (lists.map (fun c => c.name)).Pairwise (· ≠ ·))
    (hneE : eligOf lists thr ≠ []) :
    sumSeats (mergeResults (initList lists)
      (runRounds ts.toNat (eligOf lists thr))) = ts.toNat := by
  have hpwR : ((initList lists).map (fun r => r.name)).Pairwise (· ≠ ·) := by
    rw [initList_map_name]; exact hnames
  have hEnames : (runRounds ts.toNat (eligOf lists thr)).map (fun r => r.name) =
      (eligOf lists thr).map (fun r => r.name) := by
    have h := congrArg (List.map Prod.fst) (runRounds_map_nv ts.toNat (eligOf lists thr))
    simpa [List.map_map] using h
  have hsub : ((runRounds ts.toNat (eligOf lists thr)).map (fun r => r.name)).Sublist
      ((initList lists).map (fun r => r.name)) := by
    rw [hEnames]
    exact List.Sublist.map _ (List.filter_sublist (initList lists))
  rw [sumSeats_mergeResults _ _ hpwR hsub (initList_seats lists)]
  have hvE : ∀ r ∈ eligOf lists thr, 0 ≤ r.votes := fun r hr =>
    initList_nonneg lists hnn r (List.mem_of_mem_filter hr)
  rw [runRounds_sumSeats ts.toNat _ hneE hvE]
  rw [sumSeats_eq_zero (eligOf lists thr)
    (fun r hr => initList_seats lists r (List.mem_of_mem_filter hr))]
  omega

/-! ### The modified input of the monotonicity property -/

theorem raiseVotes_length (l : List Candidate) (i : Nat) (d : Int) :
    (raiseVotes l i d).length = l.length := by
  induction l generalizing i with
  | nil => cases i <;> rfl
  | cons c cs ih =>
    cases i with
    | zero => rfl
    | succ i' => simpa [raiseVotes] using ih i'

theorem raiseVotes_map_name (l : List Candidate) (i : Nat) (d : Int) :
    (raiseVotes l i d).map (fun c => c.name) = l.map (fun c => c.name) := by
  induction l generalizing i with
  | nil => cases i <;> rfl
  | cons c cs ih =>
    cases i with
    | zero => simp [raiseVotes]
    | succ i' => simpa [raiseVotes] using ih i'

theorem raiseVotes_getD_ne (l : List Candidate) (i : Nat) (d : Int) (j : Nat)
    (hji : j ≠ i) :
    (raiseVotes l i d).getD j ⟨"", 0⟩ = l.getD j ⟨"", 0⟩ := by
  induction l generalizing i j with
  | nil => cases i <;> rfl
  | cons c cs ih =>
    cases i with
    | zero =>
      cases j with
      | zero => exact absurd rfl hji
      | succ j' => rfl
    | succ i' =>
      cases j with
      | zero => rfl
      | succ j' => simpa [raiseVotes] using ih i' j' (by omega)

theorem raiseVotes_getD_self (l : List Candidate) (i : Nat) (d : Int)
    (hi : i < l.length) :
    (raiseVotes l i d).getD i ⟨"", 0⟩ =
      { l.getD i ⟨"", 0⟩ with votes := (l.getD i ⟨"", 0⟩).votes + d } := by
  induction l generalizing i with
  | nil => simp at hi
  | cons c cs ih =>
    cases i with
    | zero => rfl
    | succ i' => simpa [raiseVotes] using ih i' (by simpa using hi)

theorem raiseVotes_sum (l : List Candidate) (i : Nat) (d : Int) (hi : i < l.length) :
    ((raiseVotes l i d).map (fun c => c.votes)).sum =
      (l.map (fun c => c.votes)).sum + d := by
  induction l generalizing i with
  | nil => simp at hi
  | cons c cs ih =>
    cases i with
    | zero => simp [raiseVotes]; ring
    | succ i' =>
      have := ih i' (by simpa using hi)
      simp only [raiseVotes, List.map_cons, List.sum_cons, this]
      ring

theorem raiseVotes_nonneg (l : List Candidate) (i : Nat) (d : Int)
    (hnn : ∀ c ∈ l, 0 ≤ c.votes) (hd : 0 ≤ d) :
    ∀ c ∈ raiseVotes l i d, 0 ≤ c.votes := by
  induction l generalizing i with
  | nil => intro c hc; cases i <;> simp [raiseVotes] at hc
  | cons a cs ih =>
    intro c hc
    cases i with
    | zero =>
      rcases List.mem_cons.mp hc with rfl | hc'
      · have := hnn a (by simp)
        simp only []
        omega
      · exact hnn c (by simp [hc'])
    | succ i' =>
      rcases List.mem_cons.mp hc with rfl | hc'
      · exact hnn c (by simp)
      · exact ih i' (fun x hx => hnn x (by simp [hx])) c hc'

/-- C8: monotonicity. Raising one candidate's votes (all else fixed) never
decreases that candidate's seat count: both runs of `_calculate_dhondt`
succeed on valid inputs, and the seats of candidate `i` in the run on
`raiseVotes lists i d` are at least its seats in the run on `lists`. -/
theorem dhondt_votes_monotone (lists : List Candidate) (i : Nat) (d ts : Int) (thr : ℚ)
    (hnn : ∀ c ∈ lists, 0 ≤ c.votes)
    (hnames : (lists.map (fun c => c.name)).Pairwise (· ≠ ·))
    (hi : i < lists.length) (hd : 0 ≤ d) :
    ∃ out out', calculate_dhondt lists ts thr = Except.ok out ∧
      calculate_dhondt (raiseVotes lists i d) ts thr = Except.ok out' ∧
      (resultAt out i).seats ≤ (resultAt out' i).seats := by
  have hnn' : ∀ c ∈ raiseVotes lists i d, 0 ≤ c.votes := raiseVotes_nonneg lists i d hnn hd
  by_cases hT : (lists.map (fun c => c.votes)).sum = 0
  · obtain ⟨out', hout'⟩ := calculate_dhondt_ok_of_nonneg (raiseVotes lists i d) ts thr hnn'
    refine ⟨initList lists, out', calculate_dhondt_zero_total lists ts thr hnn hT, hout', ?_⟩
    rw [resultAt_initList lists i hi]
    simp
  · have hT0 : 0 ≤ (lists.map (fun c => c.votes)).sum := by
      apply List.sum_nonneg
      intro x hx
      obtain ⟨c, hc, rfl⟩ := List.mem_map.mp hx
      exact hnn c hc
    have hTpos : 0 < (lists.map (fun c => c.votes)).sum := lt_of_le_of_ne hT0 (Ne.symm hT)
    by_cases hEi : thresholdVotes lists thr ≤ (((lists.getD i ⟨"", 0⟩).votes : Int) : ℚ)
    · -- main case: candidate i is eligible in the first run
      have hi' : i < (raiseVotes lists i d).length := by
        rw [raiseVotes_length]; exact hi
      have hvi_mem : lists.getD i ⟨"", 0⟩ ∈ lists := by
        rw [List.getD_eq_getElem _ _ hi]; exact List.getElem_mem hi
      have hviT : (lists.getD i ⟨"", 0⟩).votes ≤ (lists.map (fun c => c.votes)).sum := by
        apply List.single_le_sum
        · intro x hx
          obtain ⟨c, hc, rfl⟩ := List.mem_map.mp hx
          exact hnn c hc
        · exact List.mem_map_of_mem _ hvi_mem
      have hTQ : (0 : ℚ) < (((lists.map (fun c => c.votes)).sum : Int) : ℚ) := by
        exact_mod_cast hTpos
      have hEiQ : (((lists.map (fun c => c.votes)).sum : Int) : ℚ) * (thr / 100) ≤
          (((lists.getD i ⟨"", 0⟩).votes : Int) : ℚ) := hEi
      have hx1 : thr / 100 ≤ 1 := by
        by_contra hgt
        push_neg at hgt
        have hviTQ : (((lists.getD i ⟨"", 0⟩).votes : Int) : ℚ) ≤
            (((lists.map (fun c => c.votes)).sum : Int) : ℚ) := by exact_mod_cast hviT
        nlinarith [mul_pos hTQ (by linarith : (0 : ℚ) < thr / 100 - 1)]
      have hdQ : (0 : ℚ) ≤ (d : ℚ) := by exact_mod_cast hd
      have hdx : (d : ℚ) * (thr / 100) ≤ (d : ℚ) := mul_le_of_le_one_right hdQ hx1
      have hv'i : ((raiseVotes lists i d).getD i ⟨"", 0⟩).votes =
          (lists.getD i ⟨"", 0⟩).votes + d := by
        rw [raiseVotes_getD_self lists i d hi]
      have hEi' : thresholdVotes (raiseVotes lists i d) thr ≤
          ((((raiseVotes lists i d).getD i ⟨"", 0⟩).votes : Int) : ℚ) := by
        rw [hv'i]
        unfold thresholdVotes
        rw [raiseVotes_sum lists i d hi]
        rw [Int.cast_add, Int.cast_add]
        nlinarith [hEiQ, hdx]
      have hE1 : eligOf lists thr ≠ [] := by
        obtain ⟨helt, _⟩ := elig_resultAt lists thr i hi hEi
        intro hnil
        rw [hnil] at helt
        simp at helt
      have hT' : ((raiseVotes lists i d).map (fun c => c.votes)).sum ≠ 0 := by
        rw [raiseVotes_sum lists i d hi]
        omega
      have hTpos' : 0 < ((raiseVotes lists i d).map (fun c => c.votes)).sum := by
        rw [raiseVotes_sum lists i d hi]
        omega
      have hE1' : eligOf (raiseVotes lists i d) thr ≠ [] := by
        obtain ⟨helt', _⟩ := elig_resultAt (raiseVotes lists i d) thr i hi' hEi'
        intro hnil
        rw [hnil] at helt'
        simp at helt'
      have hnames' : ((raiseVotes lists i d).map (fun c => c.name)).Pairwise (· ≠ ·) := by
        rw [raiseVotes_map_name]; exact hnames
      refine ⟨_, _, calculate_dhondt_success lists ts thr hnn hT hE1,
        calculate_dhondt_success (raiseVotes lists i d) ts thr hnn' hT' hE1', ?_⟩
      show seatsAt (mergeResults (initList lists)
          (runRounds ts.toNat (eligOf lists thr))) i ≤
        seatsAt (mergeResults (initList (raiseVotes lists i d))
          (runRounds ts.toNat (eligOf (raiseVotes lists i d) thr))) i
      by_contra hcon
      push_neg at hcon
      have hS1 : Finset.sum (Finset.range lists.length)
          (fun j => seatsAt (mergeResults (initList lists)
            (runRounds ts.toNat (eligOf lists thr))) j) = ts.toNat := by
        have h1 := sumSeats_eq_range_sum (mergeResults (initList lists)
          (runRounds ts.toNat (eligOf lists thr)))
        rw [sumSeats_merged lists ts thr hnn hnames hE1] at h1
        have hL1 : (mergeResults (initList lists)
            (runRounds ts.toNat (eligOf lists thr))).length = lists.length := by
          simp [mergeResults, initList]
        rw [hL1] at h1
        exact h1.symm
      have hS2 : Finset.sum (Finset.range lists.length)
          (fun j => seatsAt (mergeResults (initList (raiseVotes lists i d))
            (runRounds ts.toNat (eligOf (raiseVotes lists i d) thr))) j) = ts.toNat := by
        have h1 := sumSeats_eq_range_sum (mergeResults (initList (raiseVotes lists i d))
          (runRounds ts.toNat (eligOf (raiseVotes lists i d) thr)))
        rw [sumSeats_merged (raiseVotes lists i d) ts thr hnn' hnames' hE1'] at h1
        have hL2 : (mergeResults (initList (raiseVotes lists i d))
            (runRounds ts.toNat (eligOf (raiseVotes lists i d) thr))).length =
            lists.length := by
          simp [mergeResults, initList, raiseVotes_length]
        rw [hL2] at h1
        exact h1.symm
      have hpig : ∃ j, j < lists.length ∧ j ≠ i ∧
          seatsAt (mergeResults (initList lists)
            (runRounds ts.toNat (eligOf lists thr))) j <
          seatsAt (mergeResults (initList (raiseVotes lists i d))
            (runRounds ts.toNat (eligOf (raiseVotes lists i d) thr))) j := by
        by_contra hno
        push_neg at hno
        have hlt : Finset.sum (Finset.range lists.length)
            (fun j => seatsAt (mergeResults (initList (raiseVotes lists i d))
              (runRounds ts.toNat (eligOf (raiseVotes lists i d) thr))) j) <
            Finset.sum (Finset.range lists.length)
            (fun j => seatsAt (mergeResults (initList lists)
              (runRounds ts.toNat (eligOf lists thr))) j) := by
          apply Finset.sum_lt_sum
          · intro j hj
            by_cases hji : j = i
            · rw [hji]; exact le_of_lt hcon
            · exact hno j (Finset.mem_range.mp hj) hji
          · exact ⟨i, Finset.mem_range.mpr hi, hcon⟩
        rw [hS1, hS2] at hlt
        omega
      obtain ⟨j, hjL, hji, hjlt⟩ := hpig
      have hj' : j < (raiseVotes lists i d).length := by
        rw [raiseVotes_length]; exact hjL
      have hEj' : thresholdVotes (raiseVotes lists i d) thr ≤
          ((((raiseVotes lists i d).getD j ⟨"", 0⟩).votes : Int) : ℚ) := by
        by_contra hne2
        have h0 := out_resultAt_not_elig (raiseVotes lists i d) ts thr hnames' j hj' hne2
        have hz : seatsAt (mergeResults (initList (raiseVotes lists i d))
            (runRounds ts.toNat (eligOf (raiseVotes lists i d) thr))) j = 0 := by
          unfold seatsAt
          rw [h0, resultAt_initList _ j hj']
        omega
      have hvj_same : (raiseVotes lists i d).getD j ⟨"", 0⟩ = lists.getD j ⟨"", 0⟩ :=
        raiseVotes_getD_ne lists i d j hji
      have hEj : thresholdVotes lists thr ≤ (((lists.getD j ⟨"", 0⟩).votes : Int) : ℚ) := by
        rw [hvj_same] at hEj'
        unfold thresholdVotes at hEj' ⊢
        rw [raiseVotes_sum lists i d hi] at hEj'
        by_cases hx0 : 0 ≤ thr / 100
        · refine le_trans ?_ hEj'
          apply mul_le_mul_of_nonneg_right _ hx0
          have hle : (lists.map (fun c => c.votes)).sum ≤
              (lists.map (fun c => c.votes)).sum + d := by omega
          exact_mod_cast hle
        · push_neg at hx0
          have hvj_nn : (0 : ℚ) ≤ (((lists.getD j ⟨"", 0⟩).votes : Int) : ℚ) := by
            have hmem : lists.getD j ⟨"", 0⟩ ∈ lists := by
              rw [List.getD_eq_getElem _ _ hjL]; exact List.getElem_mem hjL
            exact_mod_cast hnn _ hmem
          have hneg : (((lists.map (fun c => c.votes)).sum : Int) : ℚ) * (thr / 100) < 0 :=
            mul_neg_of_pos_of_neg hTQ hx0
          linarith
      have hI1 := out_inv lists ts thr hnn hnames hTpos i j hi hjL hEi hEj
        (seatsAt (mergeResults (initList (raiseVotes lists i d))
          (runRounds ts.toNat (eligOf (raiseVotes lists i d) thr))) i + 1)
        (by omega) (by omega)
      have hI2 := out_inv (raiseVotes lists i d) ts thr hnn' hnames' hTpos' j i hj' hi'
        hEj' hEi'
        (seatsAt (mergeResults (initList lists)
          (runRounds ts.toNat (eligOf lists thr))) j + 1)
        (by omega) (by omega)
      rw [hvj_same, hv'i] at hI2
      have hDpos : (0 : ℚ) < ((seatsAt (mergeResults (initList (raiseVotes lists i d))
          (runRounds ts.toNat (eligOf (raiseVotes lists i d) thr))) i + 1 : Nat) : ℚ) := by
        exact_mod_cast Nat.succ_pos _
      have hvle : (lists.getD i ⟨"", 0⟩).votes ≤ (lists.getD i ⟨"", 0⟩).votes + d := by omega
      have hviQle : ((lists.getD i ⟨"", 0⟩).votes : ℚ) ≤
          (((lists.getD i ⟨"", 0⟩).votes + d : Int) : ℚ) := by exact_mod_cast hvle
      have hq : ((lists.getD i ⟨"", 0⟩).votes : ℚ) /
          ((seatsAt (mergeResults (initList (raiseVotes lists i d))
            (runRounds ts.toNat (eligOf (raiseVotes lists i d) thr))) i + 1 : Nat) : ℚ) ≤
          (((lists.getD i ⟨"", 0⟩).votes + d : Int) : ℚ) /
          ((seatsAt (mergeResults (initList (raiseVotes lists i d))
            (runRounds ts.toNat (eligOf (raiseVotes lists i d) thr))) i + 1 : Nat) : ℚ) :=
        (div_le_div_iff_of_pos_right hDpos).mpr hviQle
      have hI1' := @beats_source_le _ _
        (prio ((lists.getD i ⟨"", 0⟩).votes + d) i
          (seatsAt (mergeResults (initList (raiseVotes lists i d))
            (runRounds ts.toNat (eligOf (raiseVotes lists i d) thr))) i + 1))
        hI1 hq hvle rfl
      exact beats_asymm hI1' hI2
    · -- candidate i is not eligible in the first run: it has 0 seats there
      obtain ⟨out', hout'⟩ := calculate_dhondt_ok_of_nonneg (raiseVotes lists i d) ts thr hnn'
      by_cases hE1 : eligOf lists thr = []
      · refine ⟨initList lists, out',
          calculate_dhondt_no_elig lists ts thr hnn hT hE1, hout', ?_⟩
        rw [resultAt_initList lists i hi]
        simp
      · refine ⟨_, out', calculate_dhondt_success lists ts thr hnn hT hE1, hout', ?_⟩
        have h0 := out_resultAt_not_elig lists ts thr hnames i hi hEi
        rw [h0, resultAt_initList lists i hi]
        simp

/-- Witness for C8: raising B's votes in `[A:5, B:3]` by 4 with 3 seats. -/
theorem dhondt_votes_monotone_witness :
    ∃ out out', calculate_dhondt [⟨"A", 5⟩, ⟨"B", 3⟩] 3 3 = Except.ok out ∧
      calculate_dhondt (raiseVotes [⟨"A", 5⟩, ⟨"B", 3⟩] 1 4) 3 3 = Except.ok out' ∧
      (resultAt out 1).seats ≤ (resultAt out' 1).seats :=
  dhondt_votes_monotone [⟨"A", 5⟩, ⟨"B", 3⟩] 1 4 3 3
    (by decide) (by decide) (by decide) (by decide)
